import Mathlib

/-!
# Verification of the finch agent orchestration core

A shallow embedding, in Lean 4, of the tool-calling orchestration core of
the finch conversational agent (`src/agent/agent.ts`): the protocol parse
routine `parseToolCalls`, the response cleanup `cleanResponse`, the
streaming boundary detection performed by the `chatStream` callback inside
`chat`, the tool-execution error formatting `formatToolError`, and the
`chat` loop itself with its per-user history cache and durable store.

JavaScript strings are modelled as `List Char`; JSON values as an inductive
type; the regexes of the source as hand-rolled scanners implementing the
leftmost / lazy / greedy semantics of the concrete regular expressions that
appear in the source.  Stateful code is modelled by explicit state passing;
`throw` by `Except`.
-/

namespace Finch

/-- Characters of a JavaScript string. -/
abbrev Str := List Char

/-- The protocol open-tag marker `<tool_call>` (agent.ts line 244). -/
def openTag : Str := "<tool_call>".data

/-- The protocol close-tag marker. -/
def closeTag : Str := "</tool_call>".data

/-- JS `s.includes(pat)` : `pat` occurs as a contiguous substring of `s`. -/
def containsSub : Str → Str → Bool
  | [], pat => pat.isEmpty
  | c :: t, pat => pat.isPrefixOf (c :: t) || containsSub t pat

/-- The part of `s` strictly before the first occurrence of `pat`
(`s.split(pat)[0]` in JS; all of `s` when there is no occurrence). -/
def beforeFirst (pat : Str) : Str → Str
  | [] => []
  | c :: t => if pat.isPrefixOf (c :: t) then [] else c :: beforeFirst pat t

/-- Index of the first occurrence of `pat` in `s` (`s.indexOf(pat)`). -/
def firstOccIdx (pat : Str) : Str → Option Nat
  | [] => if pat.isEmpty then some 0 else none
  | c :: t =>
    if pat.isPrefixOf (c :: t) then some 0
    else (firstOccIdx pat t).map (· + 1)

/-! ## The streaming boundary detector

Embedding of the `chatStream` callback of `agent.chat`
(agent.ts lines 237-256).  The callback closes over a `buffer` string and
a `toolCallDetected` flag; `streamStep` is one invocation of the callback,
returning the updated state together with the list of strings passed to
the `onChunk` observer during that invocation. -/

structure StreamState where
  buffer : Str
  toolCallDetected : Bool
deriving DecidableEq

/-- One invocation of the `chatStream` callback on `chunk`: append to the
buffer; on the transition where the buffer first contains the marker,
forward the part of the buffer before the marker (when non-empty); while
no marker has been seen, forward the chunk verbatim.  Forwarding happens
only while `isFirstResponse` is set. -/
def streamStep (isFirstResponse : Bool) (st : StreamState) (chunk : Str) :
    StreamState × List Str :=
  if containsSub (st.buffer ++ chunk) openTag && !st.toolCallDetected then
    (⟨st.buffer ++ chunk, true⟩,
      if !(beforeFirst openTag (st.buffer ++ chunk)).isEmpty && isFirstResponse then
        [beforeFirst openTag (st.buffer ++ chunk)]
      else [])
  else
    (⟨st.buffer ++ chunk, st.toolCallDetected⟩,
      if !st.toolCallDetected && isFirstResponse then [chunk] else [])

/-- Feed a whole list of chunks through the callback, collecting every
string handed to the `onChunk` observer, in order. -/
def streamRun (isFirstResponse : Bool) : StreamState → List Str → StreamState × List Str
  | st, [] => (st, [])
  | st, c :: cs =>
    let s1 := streamStep isFirstResponse st c
    let s2 := streamRun isFirstResponse s1.1 cs
    (s2.1, s1.2 ++ s2.2)

/-- The strings delivered to the observer for one streamed response. -/
def streamOutputs (isFirstResponse : Bool) (chunks : List Str) : List Str :=
  (streamRun isFirstResponse ⟨[], false⟩ chunks).2

/-- The chunks the callback forwards verbatim: those arriving strictly
before the accumulated buffer first contains the open-tag marker. -/
def preChunks (b : Str) : List Str → List Str
  | [] => []
  | c :: cs =>
    if containsSub (b ++ c) openTag then []
    else c :: preChunks (b ++ c) cs


/-! ## `cleanResponse` (agent.ts lines 459-465)

`cleanResponse` chains three JS `String.replace` calls and a `trim`:
1. `/<tool_call>[\s\S]*?<\/tool_call>/g → ""` (lazy pairs),
2. `/<tool_call>[\s\S]*$/g → ""` (first open tag to end of string),
3. `/```json\s*\{[\s\S]*?"tool_calls"[\s\S]*?\}\s*```/g → ""`,
then `.trim()`.  Each regex is embedded as a scanner with the leftmost /
lazy / greedy behaviour of the concrete pattern. -/

/-- The `\s` character class of JS regexes, also the set trimmed by
`String.prototype.trim`. -/
def isJsWs (c : Char) : Bool :=
  c.toNat = 9 || c.toNat = 10 || c.toNat = 11 || c.toNat = 12 || c.toNat = 13 ||
  c.toNat = 32 || c.toNat = 160 || c.toNat = 5760 ||
  (8192 ≤ c.toNat && c.toNat ≤ 8202) || c.toNat = 8232 || c.toNat = 8233 ||
  c.toNat = 8239 || c.toNat = 8287 || c.toNat = 12288 || c.toNat = 65279

/-- JS `String.prototype.trim`. -/
def trimStr (s : Str) : Str :=
  ((s.dropWhile isJsWs).reverse.dropWhile isJsWs).reverse

/-- Remainder of `s` after the first occurrence of `pat` (none when `pat`
does not occur). -/
def dropAfterFirst (pat : Str) : Str → Option Str
  | [] => if pat.isEmpty then some [] else none
  | c :: t =>
    if pat.isPrefixOf (c :: t) then some (List.drop pat.length (c :: t))
    else dropAfterFirst pat t

/-- Replace 1: each lazy match `<tool_call> … </tool_call>` is removed;
an open tag with no later close tag stays.  The fuel is the string length,
always sufficient since every match consumes at least one character. -/
def stripClosedAux : Nat → Str → Str
  | 0, s => s
  | _ + 1, [] => []
  | fuel + 1, c :: t =>
    if openTag.isPrefixOf (c :: t) then
      match dropAfterFirst closeTag (List.drop openTag.length (c :: t)) with
      | some rest => stripClosedAux fuel rest
      | none => c :: stripClosedAux fuel t
    else c :: stripClosedAux fuel t

def stripClosed (s : Str) : Str := stripClosedAux (s.length + 1) s

/-- Replace 2: `/<tool_call>[\s\S]*$/` removes everything from the first
open tag to the end; with no open tag the string is unchanged.  Both
behaviours are exactly `beforeFirst openTag`. -/
def stripUnclosed (s : Str) : Str := beforeFirst openTag s

def fenceJson : Str := "```json".data

def fence3 : Str := "```".data

def toolCallsKey : Str := "\"tool_calls\"".data

def lbrace : Char := Char.ofNat 123

def rbrace : Char := Char.ofNat 125

/-- Scan for the lazy tail `\}\s*``` ` of the json-block regex: the first
closing brace followed by whitespace and a fence ends the match; returns
the remainder after the fence. -/
def closeSearch : Str → Option Str
  | [] => none
  | c :: t =>
    if c = rbrace && fence3.isPrefixOf (t.dropWhile isJsWs) then
      some (List.drop fence3.length (t.dropWhile isJsWs))
    else closeSearch t

/-- After the opening brace of the json-block regex: lazily find the
`"tool_calls"` literal, then the lazy closing tail. -/
def blockAfterBrace (r2 : Str) : Option Str :=
  match dropAfterFirst toolCallsKey r2 with
  | some r3 => closeSearch r3
  | none => none

/-- The `\s*\{` part of the json-block regex: after maximal whitespace the
next character must be an opening brace. -/
def blockBody : Str → Option Str
  | c :: r2 => if c = lbrace then blockAfterBrace r2 else none
  | [] => none

/-- Attempt the json-block regex at the start of `s`; on success return
the remainder after the whole match. -/
def blockMatchAt (s : Str) : Option Str :=
  if fenceJson.isPrefixOf s then
    blockBody ((List.drop fenceJson.length s).dropWhile isJsWs)
  else none

/-- Leftmost json-block match: the text before the match and the remainder
after it. -/
def jsonBlockSplit : Str → Option (Str × Str)
  | [] => none
  | c :: t =>
    match blockMatchAt (c :: t) with
    | some rem => some ([], rem)
    | none =>
      match jsonBlockSplit t with
      | some pr => some (c :: pr.1, pr.2)
      | none => none

/-- Replace 3: remove every json-block match, scanning left to right. -/
def stripJsonBlocksAux : Nat → Str → Str
  | 0, s => s
  | fuel + 1, s =>
    match jsonBlockSplit s with
    | some pr => pr.1 ++ stripJsonBlocksAux fuel pr.2
    | none => s

def stripJsonBlocks (s : Str) : Str := stripJsonBlocksAux (s.length + 1) s

/-- `cleanResponse` (agent.ts lines 459-465). -/
def cleanResponse (r : Str) : Str :=
  trimStr (stripJsonBlocks (stripUnclosed (stripClosed r)))

/-- A response contains protocol markup when the open-tag marker occurs or
the json-block pattern matches somewhere. -/
def hasProtocolMarkup (s : Str) : Bool :=
  containsSub s openTag || (jsonBlockSplit s).isSome


/-! ## JSON values and `JSON.parse`

`parseToolCalls` relies on the JavaScript builtin `JSON.parse`, embedded
here as a recursive-descent parser for the ECMA-404 grammar (whitespace =
tab, LF, CR, space; objects, arrays, strings with escapes, numbers,
`true`/`false`/`null`; trailing non-whitespace is an error).  Numeric
literals are kept verbatim as their source token: none of the verified
claims depends on numeric value identification, only on zero-ness (for JS
truthiness).  Duplicate object keys follow JS semantics: the last
assignment wins on lookup. -/

inductive Json where
  | null
  | bool (b : Bool)
  | num (tok : Str)
  | str (s : Str)
  | arr (elems : List Json)
  | obj (fields : List (Str × Json))

/-- JSON whitespace (ECMA-404): tab, LF, CR, space. -/
def jsonWs (c : Char) : Bool :=
  c.toNat = 9 || c.toNat = 10 || c.toNat = 13 || c.toNat = 32

def quoteChar : Char := Char.ofNat 34

def backslashChar : Char := Char.ofNat 92

def hexVal (c : Char) : Option Nat :=
  if c.isDigit then some (c.toNat - 48)
  else if 97 ≤ c.toNat ∧ c.toNat ≤ 102 then some (c.toNat - 87)
  else if 65 ≤ c.toNat ∧ c.toNat ≤ 70 then some (c.toNat - 55)
  else none

/-- Body of a JSON string literal, after the opening quote: returns the
decoded content and the remainder after the closing quote. -/
def parseStringBody : Nat → Str → Option (Str × Str)
  | 0, _ => none
  | fuel + 1, s =>
    match s with
    | [] => none
    | c :: t =>
      if c = quoteChar then some ([], t)
      else if c = backslashChar then
        match t with
        | [] => none
        | e :: t2 =>
          if e = quoteChar || e = backslashChar || e = '/' then
            (parseStringBody fuel t2).map (fun p => (e :: p.1, p.2))
          else if e = 'b' then
            (parseStringBody fuel t2).map (fun p => (Char.ofNat 8 :: p.1, p.2))
          else if e = 'f' then
            (parseStringBody fuel t2).map (fun p => (Char.ofNat 12 :: p.1, p.2))
          else if e = 'n' then
            (parseStringBody fuel t2).map (fun p => (Char.ofNat 10 :: p.1, p.2))
          else if e = 'r' then
            (parseStringBody fuel t2).map (fun p => (Char.ofNat 13 :: p.1, p.2))
          else if e = 't' then
            (parseStringBody fuel t2).map (fun p => (Char.ofNat 9 :: p.1, p.2))
          else if e = 'u' then
            match t2 with
            | h1 :: h2 :: h3 :: h4 :: t3 =>
              match hexVal h1, hexVal h2, hexVal h3, hexVal h4 with
              | some a, some b, some cc, some d =>
                (parseStringBody fuel t3).map
                  (fun p => (Char.ofNat (a * 4096 + b * 256 + cc * 16 + d) :: p.1, p.2))
              | _, _, _, _ => none
            | _ => none
          else none
      else if c.toNat < 32 then none
      else (parseStringBody fuel t).map (fun p => (c :: p.1, p.2))

/-- A JSON number token: `-? int frac? exp?`, kept verbatim. -/
def parseNumberTok (s : Str) : Option (Str × Str) :=
  let sgn : Str × Str :=
    match s with
    | c :: t => if c = '-' then ([c], t) else ([], s)
    | [] => ([], [])
  match sgn.2 with
  | [] => none
  | c :: t =>
    let intPart : Option (Str × Str) :=
      if c = '0' then some (['0'], t)
      else if c.isDigit then
        some (c :: t.takeWhile Char.isDigit, t.dropWhile Char.isDigit)
      else none
    match intPart with
    | none => none
    | some (ip, r1) =>
      let fracPart : Option (Str × Str) :=
        match r1 with
        | d :: r2 =>
          if d = '.' then
            let ds := r2.takeWhile Char.isDigit
            if ds.isEmpty then none
            else some (d :: ds, r2.dropWhile Char.isDigit)
          else some ([], r1)
        | [] => some ([], r1)
      match fracPart with
      | none => none
      | some (fp, r3) =>
        let expPart : Option (Str × Str) :=
          match r3 with
          | e :: r4 =>
            if e = 'e' ∨ e = 'E' then
              let esr : Str × Str :=
                match r4 with
                | c2 :: r5a => if c2 = '+' ∨ c2 = '-' then ([c2], r5a) else ([], r4)
                | [] => ([], r4)
              let ds := esr.2.takeWhile Char.isDigit
              if ds.isEmpty then none
              else some (e :: esr.1 ++ ds, esr.2.dropWhile Char.isDigit)
            else some ([], r3)
          | [] => some ([], r3)
        match expPart with
        | none => none
        | some (ep, r6) => some (sgn.1 ++ ip ++ fp ++ ep, r6)

/-- Members of an object, from just after the opening brace (non-empty
object case); `pv` parses one value. -/
def membersF (pv : Str → Option (Json × Str)) :
    Nat → Str → Option (List (Str × Json) × Str)
  | 0, _ => none
  | fuel + 1, s =>
    match s.dropWhile jsonWs with
    | [] => none
    | c :: r =>
      if c = quoteChar then
        match parseStringBody (r.length + 1) r with
        | none => none
        | some (key, r2) =>
          match r2.dropWhile jsonWs with
          | [] => none
          | d :: r4 =>
            if d = ':' then
              match pv r4 with
              | none => none
              | some (v, r5) =>
                match r5.dropWhile jsonWs with
                | [] => none
                | e :: r7 =>
                  if e = ',' then
                    (membersF pv fuel r7).map (fun p => ((key, v) :: p.1, p.2))
                  else if e = rbrace then some ([(key, v)], r7)
                  else none
            else none
      else none

/-- Elements of an array, from just after the opening bracket (non-empty
array case). -/
def elemsF (pv : Str → Option (Json × Str)) :
    Nat → Str → Option (List Json × Str)
  | 0, _ => none
  | fuel + 1, s =>
    match pv s with
    | none => none
    | some (v, r) =>
      match r.dropWhile jsonWs with
      | [] => none
      | c :: r2 =>
        if c = ',' then (elemsF pv fuel r2).map (fun p => (v :: p.1, p.2))
        else if c = ']' then some ([v], r2)
        else none

/-- One JSON value (with leading whitespace), returning the remainder. -/
def parseValueF : Nat → Str → Option (Json × Str)
  | 0, _ => none
  | fuel + 1, s =>
    let s1 := s.dropWhile jsonWs
    match s1 with
    | [] => none
    | c :: t =>
      if c = quoteChar then
        (parseStringBody (t.length + 1) t).map (fun p => (Json.str p.1, p.2))
      else if c = lbrace then
        match t.dropWhile jsonWs with
        | c2 :: r => if c2 = rbrace then some (Json.obj [], r)
                     else (membersF (parseValueF fuel) (t.length + 1) t).map
                       (fun p => (Json.obj p.1, p.2))
        | [] => none
      else if c = '[' then
        match t.dropWhile jsonWs with
        | c2 :: r => if c2 = ']' then some (Json.arr [], r)
                     else (elemsF (parseValueF fuel) (t.length + 1) t).map
                       (fun p => (Json.arr p.1, p.2))
        | [] => none
      else if "true".data.isPrefixOf s1 then some (Json.bool true, s1.drop 4)
      else if "false".data.isPrefixOf s1 then some (Json.bool false, s1.drop 5)
      else if "null".data.isPrefixOf s1 then some (Json.null, s1.drop 4)
      else (parseNumberTok s1).map (fun p => (Json.num p.1, p.2))

/-- `JSON.parse`: a single value, with only whitespace allowed after. -/
def Json.parse (s : Str) : Option Json :=
  match parseValueF (s.length + 1) s with
  | some (v, rest) => if rest.dropWhile jsonWs = [] then some v else none
  | none => none

/-! ## JS value semantics used by the validation check

`parseToolCalls` accepts a candidate with
`if (parsed.name && typeof parsed.arguments === "object")`
(agent.ts lines 396, 413, 443): `parsed.name` is used for JS truthiness
and `parsed.arguments` for the JS `typeof` test — which is `"object"` for
genuine objects but also for arrays and for `null`. -/

/-- Zero-ness of a JSON number token (`0`, `-0.00`, `0e5`, …): the digits
of the mantissa are all `0`. -/
def numTokIsZero (tok : Str) : Bool :=
  (tok.takeWhile (fun c => !(c == 'e') && !(c == 'E'))).all
    (fun c => !c.isDigit || c == '0')

/-- JS truthiness of a JSON value. -/
def Json.truthy : Json → Bool
  | .null => false
  | .bool b => b
  | .num tok => !numTokIsZero tok
  | .str s => !s.isEmpty
  | .arr _ => true
  | .obj _ => true

/-- JS `typeof x === "object"`: true for objects, arrays and `null`. -/
def Json.typeofObject : Json → Bool
  | .null => true
  | .arr _ => true
  | .obj _ => true
  | _ => false

/-- JS property lookup on a parsed JSON value: only objects have (own)
data properties; with duplicate keys the last assignment wins. -/
def Json.getField : Json → Str → Option Json
  | .obj fields, key =>
    fields.foldl (fun acc f => if f.1 = key then some f.2 else acc) none
  | _, _ => none

/-- A parsed tool-call request (`ToolCall` in agent.ts).  The source
declares `name : string` and `arguments : Record<string, unknown>`, but
the runtime check pushes `parsed.name` / `parsed.arguments` unconverted,
so both components are JSON values here. -/
structure ToolCall where
  name : Json
  arguments : Json

/-- The acceptance check shared by all three formats:
`parsed.name && typeof parsed.arguments === "object"`. -/
def validateCall (j : Json) : Option ToolCall :=
  match j.getField "name".data with
  | some n =>
    if n.truthy then
      match j.getField "arguments".data with
      | some a => if a.typeofObject then some ⟨n, a⟩ else none
      | none => none
    else none
  | none => none

/-! ## The three capture scanners of `parseToolCalls`
(agent.ts lines 385-454)

Format 1a: `/<tool_call>\s*(\{[\s\S]*?\})\s*<\/tool_call>/g` — lazy
capture, ending at the first `}` followed by whitespace and the close tag.
Format 1b: `/<tool_call>\s*(\{[\s\S]*\})/g` — greedy capture, ending at
the last `}` of the text.
Format 2: `/```json\s*(\{[\s\S]*?\})\s*```/g` — like 1a with fence
delimiters.  All are applied globally: scanning resumes after each
match; a failed start position advances by one character. -/

/-- Lazy search for `\}\s*` followed by `closeDelim`: first closing brace
whose whitespace-skipped continuation starts with the delimiter ends the
capture. -/
def capSearchUntil (closeDelim : Str) (acc : Str) : Str → Option (Str × Str)
  | [] => none
  | c :: t =>
    if c = rbrace && closeDelim.isPrefixOf (t.dropWhile isJsWs) then
      some (acc ++ [rbrace], List.drop closeDelim.length (t.dropWhile isJsWs))
    else capSearchUntil closeDelim (acc ++ [c]) t

/-- Attempt `openDelim \s* ( \{ … \} ) \s* closeDelim` at the start of
`s`; returns the capture and the remainder after the whole match. -/
def tagCapMatchAt (openDelim closeDelim : Str) (s : Str) : Option (Str × Str) :=
  if openDelim.isPrefixOf s then
    match (List.drop openDelim.length s).dropWhile isJsWs with
    | c :: r => if c = lbrace then capSearchUntil closeDelim [lbrace] r else none
    | [] => none
  else none

/-- Split `s` after its last closing brace (none when there is none). -/
def lastBraceSplit (s : Str) : Option (Str × Str) :=
  match s.reverse.dropWhile (fun c => !(c == rbrace)) with
  | [] => none
  | dropped => some (dropped.reverse, (s.reverse.takeWhile (fun c => !(c == rbrace))).reverse)

/-- Attempt the unclosed-tag format at the start of `s`: open tag,
whitespace, then a greedy `\{[\s\S]*\}` capture up to the last `}`. -/
def openMatchAt (s : Str) : Option (Str × Str) :=
  if openTag.isPrefixOf s then
    match (List.drop openTag.length s).dropWhile isJsWs with
    | c :: r =>
      if c = lbrace then
        match lastBraceSplit r with
        | some pr => some (lbrace :: pr.1, pr.2)
        | none => none
      else none
    | [] => none
  else none

/-- Global scanning: repeatedly try the matcher, advancing one character
on failure and past the match on success.  The fuel is the string length,
always sufficient since every match consumes at least one character. -/
def capturesLoop (f : Str → Option (Str × Str)) : Nat → Str → List Str
  | 0, _ => []
  | _ + 1, [] => []
  | fuel + 1, c :: t =>
    match f (c :: t) with
    | some pr => pr.1 :: capturesLoop f fuel pr.2
    | none => capturesLoop f fuel t

/-- Captures of format 1a (closed tag pairs), in text order. -/
def closedCaptures (s : Str) : List Str :=
  capturesLoop (tagCapMatchAt openTag closeTag) (s.length + 1) s

/-- Captures of format 1b (unclosed open tag), in text order. -/
def openCaptures (s : Str) : List Str :=
  capturesLoop openMatchAt (s.length + 1) s

/-- Captures of format 2 (fenced json blocks), in text order. -/
def blockCaptures (s : Str) : List Str :=
  capturesLoop (tagCapMatchAt fenceJson fence3) (s.length + 1) s

/-- Per-occurrence processing of format 1a: `JSON.parse` in a `try`; a
parse failure, or a parse that fails the acceptance check, contributes
nothing. -/
def closedEntry (cap : Str) : Option ToolCall :=
  (Json.parse cap).bind validateCall

def closedCalls (r : Str) : List ToolCall :=
  (closedCaptures r).filterMap closedEntry

def nonBrace (c : Char) : Bool := !(c == lbrace) && !(c == rbrace)

/-- Inside a group iteration `\{[^{}]*\}` of the fallback regex: after
the inner run of non-brace characters, an inner closing brace continues
the scan; anything else fails the whole match. -/
def innerStep2 (recur : Str → Str → Option Str) (acc run run2 : Str) :
    Str → Option Str
  | [] => none
  | c2 :: r4 =>
    if c2 = rbrace then recur (acc ++ run ++ [lbrace] ++ run2 ++ [rbrace]) r4
    else none

/-- After a run of non-brace characters: a closing brace ends the match;
an opening brace starts a group iteration. -/
def innerStep (recur : Str → Str → Option Str) (acc run : Str) :
    Str → Option Str
  | [] => none
  | c :: r2 =>
    if c = rbrace then some (acc ++ run ++ [rbrace])
    else innerStep2 recur acc run (r2.takeWhile nonBrace) (r2.dropWhile nonBrace)

/-- The fallback regex of format 1b,
`/^\{[^{}]*(?:\{[^{}]*\}[^{}]*)*\}/` : an anchored brace pattern that
matches only objects whose braces nest at most one level deep. -/
def innerScanF : Nat → Str → Str → Option Str
  | 0, _, _ => none
  | fuel + 1, acc, rest =>
    innerStep (innerScanF fuel) acc (rest.takeWhile nonBrace)
      (rest.dropWhile nonBrace)

def innerBalanced (s : Str) : Option Str :=
  match s with
  | c :: r => if c = lbrace then innerScanF (s.length + 1) [lbrace] r else none
  | [] => none

/-- Per-occurrence processing of format 1b: greedy `JSON.parse`, and on a
parse exception the anchored brace-pattern fallback. -/
def openEntry (cap : Str) : Option ToolCall :=
  match Json.parse cap with
  | some p => validateCall p
  | none =>
    match innerBalanced cap with
    | some inner =>
      match Json.parse inner with
      | some p => validateCall p
      | none => none
    | none => none

def openCalls (r : Str) : List ToolCall :=
  (openCaptures r).filterMap openEntry

/-- Per-occurrence processing of format 2: the parsed block must carry a
`tool_calls` array; each array entry is validated independently. -/
def blockEntryCalls (cap : Str) : List ToolCall :=
  match Json.parse cap with
  | some p =>
    match p.getField "tool_calls".data with
    | some (Json.arr elems) => elems.filterMap validateCall
    | _ => []
  | none => []

def blockCalls (r : Str) : List ToolCall :=
  ((blockCaptures r).map blockEntryCalls).flatten

/-- `parseToolCalls` (agent.ts lines 385-454): the three formats in
precedence order, each early-returning (`if (calls.length > 0) return
calls`) when it produced at least one accepted request. -/
def parseToolCalls (response : Str) : List ToolCall :=
  if (closedCalls response).length > 0 then closedCalls response
  else if (openCalls response).length > 0 then openCalls response
  else blockCalls response

/-- Modelled from the spec: the fallback behaviour claimed in §4.1 —
"extracting the shortest balanced-brace JSON object prefix via
brace-depth matching" — as a depth-counting scanner, for comparison with
the `innerBalanced` pattern the code actually uses. -/
def specBraceGo : Str → Nat → Str → Option Str
  | acc, depth, c :: t =>
    if c = rbrace then
      if depth = 1 then some (acc ++ [rbrace])
      else specBraceGo (acc ++ [rbrace]) (depth - 1) t
    else if c = lbrace then specBraceGo (acc ++ [lbrace]) (depth + 1) t
    else specBraceGo (acc ++ [c]) depth t
  | _, _, [] => none

/-- Modelled from the spec: shortest brace-balanced prefix of a string
beginning with an opening brace. -/
def specBraceBalancedPrefix (s : Str) : Option Str :=
  match s with
  | c :: r => if c = lbrace then specBraceGo [lbrace] 1 r else none
  | [] => none


/-! ## The agent: collaborators, state, and the `chat` loop
(agent.ts lines 154-376)

Collaborators are explicit data: the model is a pair of functions (one
per entry point), the durable store is a per-user association list, and
`throw` is `Except.error`.  The durable-store operations
(`getAllUserIds`, `getConversationHistory`, `addToConversationHistory`,
`clearConversationHistory`) are declared in `memory.ts` but their
implementation is not under src/, so they are modelled from the spec §6
as a per-user append-only sequence. -/

inductive Role where
  | system
  | user
  | assistant
deriving DecidableEq

structure ChatMessage where
  role : Role
  content : Str
deriving DecidableEq

/-- Modelled from the spec §3 (the `ConversationEntry` declaration is not
under src/): role, content, timestamp. -/
structure ConversationEntry where
  role : Role
  content : Str
  timestamp : Nat
deriving DecidableEq

/-- `ToolResult` (tools/types.ts). -/
structure ToolResult where
  success : Bool
  output : Str
  error : Option Str
deriving DecidableEq

/-- What a tool's `execute` may throw, as far as the catch in `chat`
distinguishes (agent.ts lines 308-337): a Zod validation error carrying
per-issue paths and messages, or any other error with a message. -/
inductive ThrownError where
  | zodError (issues : List (List Str × Str))
  | other (message : Str)

structure ToolImpl where
  execute : Json → Except ThrownError ToolResult

/-- The tool registry: `Map` from name to tool.  Registration without
duplicate names; lookup by string key (a non-string `call.name` never
equals a `Map` string key under SameValueZero). -/
abbrev ToolRegistry := List (Str × ToolImpl)

def registryLookup (reg : ToolRegistry) (name : Json) : Option ToolImpl :=
  match name with
  | Json.str s => (reg.find? (fun p => p.1 == s)).map Prod.snd
  | _ => none

def registryNames (reg : ToolRegistry) : List Str := reg.map Prod.fst

def joinSep (sep : Str) : List Str → Str
  | [] => []
  | [x] => x
  | x :: xs => x ++ sep ++ joinSep sep xs

/-- JS template-literal stringification of the values that can appear as
`call.name`: exact for strings, booleans, `null`, number tokens and plain
objects; arrays join their elements with commas (rendered here to a fixed
nesting depth — no claim exercises an array-valued name). -/
def jsToDisplayF : Nat → Json → Str
  | _, .str s => s
  | _, .num tok => tok
  | _, .bool true => "true".data
  | _, .bool false => "false".data
  | _, .null => "null".data
  | _, .obj _ => "[object Object]".data
  | 0, .arr _ => []
  | fuel + 1, .arr xs => joinSep ",".data (xs.map (jsToDisplayF fuel))

def jsToDisplay (j : Json) : Str := jsToDisplayF 8 j

inductive ToolErrorType where
  | unknownTool
  | invalidArguments
  | executionFailed
  | timeout
deriving DecidableEq

/-- `ToolExecutionError` (agent.ts lines 120-125); `toolName` is stored
already stringified. -/
structure ToolExecutionError where
  type : ToolErrorType
  toolName : Str
  message : Str
  details : Option Str

/-- `formatToolError` (agent.ts lines 127-149). -/
def formatToolError (error : ToolExecutionError)
    (availableTools : Option (List Str)) : Str :=
  match error.type with
  | .unknownTool =>
    let toolList :=
      match availableTools with
      | some l =>
        if l.length ≠ 0 then "Available tools: ".data ++ joinSep ", ".data l
        else []
      | none => []
    "Error: Unknown tool \"".data ++ error.toolName ++ "\". ".data ++ toolList
  | .invalidArguments =>
    "Error: Invalid arguments for \"".data ++ error.toolName ++ "\": ".data ++
      error.message ++
      (match error.details with
       | some d => "\nDetails: ".data ++ d
       | none => [])
  | .executionFailed =>
    "Error: Tool \"".data ++ error.toolName ++ "\" failed: ".data ++ error.message
  | .timeout =>
    "Error: Tool \"".data ++ error.toolName ++ "\" timed out after ".data ++
      error.details.getD "unknown".data ++ " ms".data

/-- One iteration of the tool-execution loop body (agent.ts lines
277-339), producing the result string pushed for this call. -/
def execToolCall (reg : ToolRegistry) (call : ToolCall) : Str :=
  match registryLookup reg call.name with
  | none =>
    formatToolError
      ⟨.unknownTool, jsToDisplay call.name,
        "Tool \"".data ++ jsToDisplay call.name ++ "\" does not exist".data,
        none⟩
      (some (registryNames reg))
  | some tool =>
    match tool.execute call.arguments with
    | .ok result =>
      if result.success then
        "[".data ++ jsToDisplay call.name ++ "] ".data ++ result.output
      else
        formatToolError
          ⟨.executionFailed, jsToDisplay call.name,
            result.error.getD "Unknown error".data, none⟩ none
    | .error (.zodError issues) =>
      formatToolError
        ⟨.invalidArguments, jsToDisplay call.name, "Validation failed".data,
          some (joinSep "; ".data
            (issues.map (fun i => joinSep ".".data i.1 ++ ": ".data ++ i.2)))⟩
        none
    | .error (.other msg) =>
      if containsSub msg "timed out".data then
        formatToolError
          ⟨.timeout, jsToDisplay call.name, "Command timed out".data,
            some "30000".data⟩ none
      else
        formatToolError
          ⟨.executionFailed, jsToDisplay call.name, msg, none⟩ none

/-- The synthetic feedback turn built from all results of a round
(agent.ts lines 342-352). -/
def mkFeedback (results : List Str) : Str :=
  "Tool results:\n".data ++ joinSep "\n\n".data results ++
    (if results.any (fun r => "Error:".data.isPrefixOf r) then
      "\n\nSome tool calls failed. You may retry with corrected arguments, try a different approach, or explain the issue to the user.".data
     else
      "\n\nContinue your response based on these results.".data)

/-- The model collaborator (llm.ts interface; implementation external):
`chat` returns final text; `chatStream` delivers the text as chunks to a
callback and returns it whole — modelled by the chunk list, whose
concatenation is the returned text.  Errors are thrown. -/
structure LLMBehavior where
  chat : List ChatMessage → Except Str Str
  chatStream : List ChatMessage → Except Str (List Str)

abbrev Cache := List (Str × List ConversationEntry)

abbrev Store := List (Str × List ConversationEntry)

def cacheGet (c : Cache) (uid : Str) : List ConversationEntry :=
  match c.find? (fun p => p.1 == uid) with
  | some p => p.2
  | none => []

def cacheHas (c : Cache) (uid : Str) : Bool := c.any (fun p => p.1 == uid)

def cacheSet (c : Cache) (uid : Str) (v : List ConversationEntry) : Cache :=
  if cacheHas c uid then
    c.map (fun p => if p.1 == uid then (p.1, v) else p)
  else c ++ [(uid, v)]

/-- Modelled from the spec §6: `getConversationHistory`. -/
def storeGet (s : Store) (uid : Str) : List ConversationEntry := cacheGet s uid

/-- Modelled from the spec §6: `addToConversationHistory` appends one
entry to the user's durable history. -/
def storeAppend (s : Store) (uid : Str) (e : ConversationEntry) : Store :=
  cacheSet s uid (cacheGet s uid ++ [e])

structure AgentState where
  cache : Cache
  store : Store

structure AgentConfig where
  maxToolCalls : Nat
  maxHistoryLength : Nat

/-- The environment of one agent instance: model collaborator, tool
registry, and the system prompt per user (the content assembled by
`buildSystemPrompt` from preferences and tool schemas; opaque here since
no claim depends on it). -/
structure AgentEnv where
  llm : LLMBehavior
  registry : ToolRegistry
  promptOf : Str → Str

/-- JS `history.slice(-k)`: the last `k` entries — except that `k = 0`
gives `slice(-0) = slice(0)`, the whole array. -/
def sliceNeg (k : Nat) (l : List ConversationEntry) : List ConversationEntry :=
  if k = 0 then l else l.drop (l.length - k)

/-- `loadHistory` (agent.ts lines 164-180): hydrate every user's cache
entry from durable history, trimmed to the last `maxHistoryLength * 2`
entries. -/
def loadHistory (cfg : AgentConfig) (store : Store) : AgentState :=
  ⟨store.map (fun p => (p.1, sliceNeg (cfg.maxHistoryLength * 2) p.2)), store⟩

/-- The `while (cached.length > maxHistoryLength * 2) cached.shift()`
trim of `saveToHistory` (agent.ts lines 221-223). -/
def shiftWhile (bound : Nat) : List ConversationEntry → List ConversationEntry
  | [] => []
  | e :: t => if t.length + 1 > bound then shiftWhile bound t else e :: t

/-- Output of the tool-calling loop: the final raw model response, the
number of model calls, the number of tool-executing rounds, whether the
forced-final path was taken, and everything handed to the `onChunk`
observer. -/
structure LoopOut where
  raw : Str
  llmCalls : Nat
  rounds : Nat
  forcedFinal : Bool
  streamed : List Str
deriving DecidableEq

/-- The tool-calling loop of `chat` (agent.ts lines 227-364), counting
down `remaining = maxToolCalls - iterations`; after the loop, one forced
final non-streamed model call. -/
def runLoop (env : AgentEnv) (useStream : Bool) (msgs : List ChatMessage)
    (isFirst : Bool) : Nat → Nat → Nat → List Str → Except Str LoopOut
  | 0, calls, rounds, outs =>
    match env.llm.chat msgs with
    | .error e => .error e
    | .ok resp => .ok ⟨resp, calls + 1, rounds, true, outs⟩
  | n + 1, calls, rounds, outs =>
    match ((if useStream then
            match env.llm.chatStream msgs with
            | .error e => .error e
            | .ok chunks =>
              .ok (chunks.flatten, outs ++ streamOutputs isFirst chunks)
           else
            match env.llm.chat msgs with
            | .error e => .error e
            | .ok resp => .ok (resp, outs)) :
          Except Str (Str × List Str)) with
    | .error e => .error e
    | .ok pr =>
      if (parseToolCalls pr.1).length = 0 then
        .ok ⟨pr.1, calls + 1, rounds, false, pr.2⟩
      else
        runLoop env useStream
          (msgs ++ [⟨.assistant, pr.1⟩,
            ⟨.user, mkFeedback ((parseToolCalls pr.1).map (execToolCall env.registry))⟩])
          false n (calls + 1) (rounds + 1) pr.2

/-- The message list assembled at the start of a turn (agent.ts lines
192-204): system prompt, this user's cached history, the user message. -/
def mkMessages (env : AgentEnv) (cache : Cache) (uid um : Str) :
    List ChatMessage :=
  ⟨Role.system, env.promptOf uid⟩ ::
    ((cacheGet cache uid).map (fun e => (⟨e.role, e.content⟩ : ChatMessage)) ++
      [⟨Role.user, um⟩])

/-- `if (!historyCache.has(userId)) historyCache.set(userId, [])`
(agent.ts lines 207-209), performed before the loop runs. -/
def ensureCacheEntry (cache : Cache) (uid : Str) : Cache :=
  if cacheHas cache uid then cache else cache ++ [(uid, [])]

/-- `saveToHistory` (agent.ts lines 212-224) after a successful turn:
push the user and assistant entries on the cache, append both durably,
then trim the cache from the front. -/
def commitTurn (cfg : AgentConfig) (cache1 : Cache) (store : Store)
    (uid um cleaned : Str) (now : Nat) : AgentState :=
  ⟨cacheSet cache1 uid
      (shiftWhile (cfg.maxHistoryLength * 2)
        (cacheGet cache1 uid ++
          [⟨Role.user, um, now⟩, ⟨Role.assistant, cleaned, now⟩])),
    storeAppend (storeAppend store uid ⟨Role.user, um, now⟩) uid
      ⟨Role.assistant, cleaned, now⟩⟩

/-- `agent.chat` (agent.ts lines 182-365): build the message list, ensure
the cache entry exists, run the tool-calling loop; on success clean the
final response, persist the turn and return the cleaned text (with the
loop statistics); a thrown model error propagates with no history
change.  `now` is the turn's `Date.now()` clock. -/
def chat (env : AgentEnv) (cfg : AgentConfig) (st : AgentState)
    (um uid : Str) (useStream : Bool) (now : Nat) :
    (Except Str (Str × LoopOut)) × AgentState :=
  match runLoop env useStream (mkMessages env st.cache uid um) true
      cfg.maxToolCalls 0 0 [] with
  | .error e => (.error e, ⟨ensureCacheEntry st.cache uid, st.store⟩)
  | .ok out =>
    (.ok (cleanResponse out.raw, out),
      commitTurn cfg (ensureCacheEntry st.cache uid) st.store uid um
        (cleanResponse out.raw) now)

/-- One submitted turn: message, user, streaming flag, clock. -/
structure TurnInput where
  userMessage : Str
  userId : Str
  useStream : Bool
  now : Nat

/-- A sequence of turns, each advancing the state (turns that fail leave
the history unchanged). -/
def runTurns (env : AgentEnv) (cfg : AgentConfig) (inps : List TurnInput)
    (st : AgentState) : AgentState :=
  inps.foldl
    (fun s i => (chat env cfg s i.userMessage i.userId i.useStream i.now).2) st

/-- The projection under which the cache is compared with durable
history: role and content (the store assigns its own timestamps). -/
def rcOf (e : ConversationEntry) : Role × Str := (e.role, e.content)

/-- The history invariant of claim C2: every user's cache entry is
bounded by `2 × maxHistoryLength` and is a suffix of that user's durable
history. -/
def histInv (cfg : AgentConfig) (st : AgentState) : Prop :=
  ∀ u, (cacheGet st.cache u).length ≤ 2 * cfg.maxHistoryLength ∧
    ((cacheGet st.cache u).map rcOf) <:+ ((storeGet st.store u).map rcOf)

/-- Model response and environment used by concrete agent runs: a model
that always requests the same tool call. -/
def C3resp : Str :=
  "<tool_call>\x7b\"name\":\"t\",\"arguments\":\x7b\x7d\x7d</tool_call>".data

def C3env : AgentEnv :=
  ⟨⟨fun _ => .ok C3resp, fun _ => .ok []⟩, [], fun _ => []⟩

/-- A model that always throws. -/
def throwEnv : AgentEnv :=
  ⟨⟨fun _ => .error "boom".data, fun _ => .error "boom".data⟩, [], fun _ => []⟩


def C8reg : ToolRegistry :=
  [("alpha".data, ⟨fun _ => .ok ⟨true, "out".data, none⟩⟩),
   ("beta".data, ⟨fun _ => .ok ⟨true, [], none⟩⟩)]


/-! ### Basic facts about substring search -/

theorem containsSub_nil_right (s : Str) : containsSub s [] = true := by
  cases s <;> simp [containsSub]

theorem containsSub_of_isPrefixOf {s pat : Str} (h : pat.isPrefixOf s = true) :
    containsSub s pat = true := by
  cases s with
  | nil =>
    cases pat with
    | nil => rfl
    | cons a t => simp at h
  | cons c t => simp [containsSub, h]

theorem containsSub_of_prefix {s pat : Str} (h : pat <+: s) :
    containsSub s pat = true :=
  containsSub_of_isPrefixOf (List.isPrefixOf_iff_prefix.mpr h)

theorem containsSub_append_right {a pat : Str} (b : Str)
    (h : containsSub a pat = true) : containsSub (a ++ b) pat = true := by
  induction a with
  | nil =>
    simp [containsSub] at h
    subst h
    exact containsSub_nil_right b
  | cons c t ih =>
    simp only [containsSub, Bool.or_eq_true] at h
    rcases h with h | h
    · have hp : pat <+: (c :: t) := List.isPrefixOf_iff_prefix.mp h
      exact containsSub_of_prefix (hp.trans (List.prefix_append _ _))
    · simp only [List.cons_append, containsSub, Bool.or_eq_true]
      exact Or.inr (ih h)

theorem containsSub_append_left {b pat : Str} (a : Str)
    (h : containsSub b pat = true) : containsSub (a ++ b) pat = true := by
  induction a with
  | nil => simpa using h
  | cons c t ih =>
    simp only [List.cons_append, containsSub, Bool.or_eq_true]
    exact Or.inr ih

theorem length_le_of_containsSub {s pat : Str} (h : containsSub s pat = true) :
    pat.length ≤ s.length := by
  induction s with
  | nil =>
    simp [containsSub, List.isEmpty_iff] at h
    simp [h]
  | cons c t ih =>
    simp only [containsSub, Bool.or_eq_true] at h
    rcases h with h | h
    · exact (List.isPrefixOf_iff_prefix.mp h).length_le
    · exact le_trans (ih h) (by simp)

theorem beforeFirst_nil_pat (r : Str) : beforeFirst [] r = [] := by
  cases r <;> simp [beforeFirst]

theorem beforeFirst_append_of_containsSub {b pat : Str} (r : Str)
    (h : containsSub b pat = true) :
    beforeFirst pat (b ++ r) = beforeFirst pat b := by
  induction b with
  | nil =>
    simp only [containsSub, List.isEmpty_iff] at h
    subst h
    simp [beforeFirst_nil_pat]
  | cons c t ih =>
    by_cases hp : pat.isPrefixOf (c :: t) = true
    · have hp2 : pat.isPrefixOf (c :: (t ++ r)) = true := by
        refine List.isPrefixOf_iff_prefix.mpr ?_
        have h1 : pat <+: (c :: t) := List.isPrefixOf_iff_prefix.mp hp
        have h2 : (c :: t) <+: (c :: t) ++ r := List.prefix_append _ _
        simpa using h1.trans h2
      simp [beforeFirst, hp, hp2]
    · have hct : containsSub t pat = true := by
        simp only [containsSub, Bool.or_eq_true] at h
        exact h.resolve_left (by simpa using hp)
      have hp2 : ¬ pat.isPrefixOf (c :: (t ++ r)) = true := by
        intro hpre
        apply hp
        have hl : pat.length ≤ (c :: t).length :=
          le_trans (length_le_of_containsSub hct) (by simp)
        have hpre2 : pat <+: (c :: t) ++ r := by
          simpa using List.isPrefixOf_iff_prefix.mp hpre
        have hpp : pat <+: (c :: t) := by
          rw [List.prefix_iff_eq_take] at hpre2 ⊢
          rwa [List.take_append_of_le_length hl] at hpre2
        exact List.isPrefixOf_iff_prefix.mpr hpp
      simp only [List.cons_append, beforeFirst, if_neg hp2, if_neg hp,
        List.append_eq]
      rw [ih hct]

theorem containsSub_eq_false_of_append {a b pat : Str}
    (h : containsSub (a ++ b) pat = false) : containsSub a pat = false := by
  cases hc : containsSub a pat
  · rfl
  · rw [containsSub_append_right b hc] at h
    cases h

/-! ### Facts about `firstOccIdx` and `beforeFirst` -/

theorem isPrefixOf_drop_of_firstOccIdx {pat s : Str} {i : Nat}
    (h : firstOccIdx pat s = some i) : pat.isPrefixOf (s.drop i) = true := by
  induction s generalizing i with
  | nil =>
    simp only [firstOccIdx] at h
    split at h
    · rename_i he
      cases h
      simp_all [List.isEmpty_iff]
    · cases h
  | cons c t ih =>
    simp only [firstOccIdx] at h
    split at h
    · rename_i hp
      cases h
      simpa using hp
    · rcases Option.map_eq_some.mp h with ⟨j, hj, rfl⟩
      simpa using ih hj

theorem beforeFirst_eq_take_of_firstOccIdx {pat s : Str} {i : Nat}
    (h : firstOccIdx pat s = some i) : beforeFirst pat s = s.take i := by
  induction s generalizing i with
  | nil => simp [beforeFirst]
  | cons c t ih =>
    simp only [firstOccIdx] at h
    split at h
    · rename_i hp
      cases h
      simp [beforeFirst, hp]
    · rename_i hp
      rcases Option.map_eq_some.mp h with ⟨j, hj, rfl⟩
      simp [beforeFirst, hp, List.take_succ_cons, ih hj]

theorem containsSub_iff_firstOccIdx_isSome {s pat : Str} :
    containsSub s pat = true ↔ (firstOccIdx pat s).isSome = true := by
  induction s with
  | nil =>
    simp only [containsSub, firstOccIdx]
    constructor
    · intro h; simp [List.isEmpty_iff.mp h]
    · intro h
      by_cases he : pat.isEmpty
      · exact he
      · simp [he] at h
  | cons c t ih =>
    simp only [containsSub, firstOccIdx, Bool.or_eq_true]
    constructor
    · rintro (h | h)
      · simp [h]
      · by_cases hp : pat.isPrefixOf (c :: t) = true
        · simp [hp]
        · simp only [hp, if_false]
          simpa using ih.mp h
    · intro h
      by_cases hp : pat.isPrefixOf (c :: t) = true
      · exact Or.inl hp
      · simp only [hp, if_false] at h
        exact Or.inr (ih.mpr (by simpa using h))

theorem beforeFirst_eq_self_of_not_containsSub {s pat : Str}
    (h : containsSub s pat = false) : beforeFirst pat s = s := by
  induction s with
  | nil => rfl
  | cons c t ih =>
    simp only [containsSub, Bool.or_eq_false_iff] at h
    simp [beforeFirst, h.1, ih h.2]

theorem containsSub_of_firstOccIdx {s pat : Str} {i : Nat}
    (h : firstOccIdx pat s = some i) : containsSub s pat = true :=
  containsSub_iff_firstOccIdx_isSome.mpr (by simp [h])

/-- When `pat`'s first occurrence in `s` fits inside the prefix `a` of `s`,
that prefix already contains `pat`. -/
theorem containsSub_of_fits {s a pat : Str} {i : Nat}
    (h : firstOccIdx pat s = some i) (hpre : a <+: s)
    (hlen : i + pat.length ≤ a.length) : containsSub a pat = true := by
  rcases hpre with ⟨t, rfl⟩
  have hdrop := isPrefixOf_drop_of_firstOccIdx h
  have hia : i ≤ a.length := le_trans (Nat.le_add_right _ _) hlen
  rw [List.drop_append_of_le_length hia] at hdrop
  have hpat : pat <+: a.drop i := by
    have hp2 : pat <+: a.drop i ++ t := List.isPrefixOf_iff_prefix.mp hdrop
    rw [List.prefix_iff_eq_take] at hp2 ⊢
    rwa [List.take_append_of_le_length (by simp; omega)] at hp2
  have : containsSub (a.drop i) pat = true := containsSub_of_prefix hpat
  calc containsSub a pat = containsSub (a.take i ++ a.drop i) pat := by
        rw [List.take_append_drop]
    _ = true := containsSub_append_left _ this

/-! ### The behaviour of the detector -/

theorem streamRun_of_detected (f : Bool) (cs : List Str) :
    ∀ b, (streamRun f ⟨b, true⟩ cs).2 = [] := by
  induction cs with
  | nil => intro b; rfl
  | cons c cs ih =>
    intro b
    simp [streamRun, streamStep, ih]

theorem streamStep_trans (f : Bool) (b c : Str)
    (h : containsSub (b ++ c) openTag = true) :
    streamStep f ⟨b, false⟩ c =
      (⟨b ++ c, true⟩,
        if !(beforeFirst openTag (b ++ c)).isEmpty && f then
          [beforeFirst openTag (b ++ c)]
        else []) := by
  simp [streamStep, h]

theorem streamStep_quiet (f : Bool) (b c : Str)
    (h : containsSub (b ++ c) openTag = false) :
    streamStep f ⟨b, false⟩ c = (⟨b ++ c, false⟩, if f then [c] else []) := by
  simp [streamStep, h]

theorem streamRun_cons (f : Bool) (st : StreamState) (c : Str) (cs : List Str) :
    streamRun f st (c :: cs) =
      ((streamRun f (streamStep f st c).1 cs).1,
        (streamStep f st c).2 ++ (streamRun f (streamStep f st c).1 cs).2) :=
  rfl

/-- Full characterisation of one streamed response, from an arbitrary
clean buffer: the observer receives the chunks that precede the transition
chunk verbatim, and then, when the marker occurs, the whole buffer prefix
strictly before that first marker (if non-empty), and nothing afterwards. -/
theorem streamRun_spec (cs : List Str) :
    ∀ b, containsSub b openTag = false →
    (streamRun true ⟨b, false⟩ cs).2 =
      preChunks b cs ++
        (if containsSub (b ++ cs.flatten) openTag then
          (if (beforeFirst openTag (b ++ cs.flatten)).isEmpty then []
           else [beforeFirst openTag (b ++ cs.flatten)])
         else []) := by
  induction cs with
  | nil =>
    intro b hb
    simp [streamRun, preChunks, hb]
  | cons c cs ih =>
    intro b hb
    by_cases hc : containsSub (b ++ c) openTag = true
    · have hfull : containsSub (b ++ (c :: cs).flatten) openTag = true := by
        have := containsSub_append_right cs.flatten hc
        simpa [List.append_assoc] using this
      have hbf : beforeFirst openTag (b ++ (c :: cs).flatten)
          = beforeFirst openTag (b ++ c) := by
        have := beforeFirst_append_of_containsSub cs.flatten hc
        simpa [List.append_assoc] using this
      rw [streamRun_cons, streamStep_trans true b c hc]
      simp only [streamRun_of_detected, List.append_nil, preChunks, hc,
        if_true, hfull, hbf]
      by_cases he : (beforeFirst openTag (b ++ c)).isEmpty = true <;>
        simp [he]
    · have hc' : containsSub (b ++ c) openTag = false := by
        simpa using hc
      have ihr := ih (b ++ c) hc'
      rw [streamRun_cons, streamStep_quiet true b c hc']
      simp only [if_true, ihr, preChunks, hc', if_false]
      simp [List.append_assoc]

/-- With no marker anywhere, every chunk is kept. -/
theorem preChunks_of_not_containsSub (cs : List Str) :
    ∀ b, containsSub (b ++ cs.flatten) openTag = false → preChunks b cs = cs := by
  induction cs with
  | nil => intro b _; rfl
  | cons c cs ih =>
    intro b hb
    have hc : containsSub (b ++ c) openTag = false := by
      refine containsSub_eq_false_of_append (b := cs.flatten) ?_
      simpa [List.append_assoc] using hb
    simp only [preChunks, hc, Bool.false_eq_true, if_false]
    rw [ih (b ++ c) (by simpa [List.append_assoc] using hb)]

/-- The kept chunks form a prefix of the response. -/
theorem preChunks_join_prefix (cs : List Str) :
    ∀ b, b ++ (preChunks b cs).flatten <+: b ++ cs.flatten := by
  induction cs with
  | nil => intro b; simp [preChunks]
  | cons c cs ih =>
    intro b
    by_cases hc : containsSub (b ++ c) openTag = true
    · simp only [preChunks, hc, if_true, List.flatten_nil, List.append_nil]
      exact ⟨c ++ cs.flatten, by simp [List.append_assoc]⟩
    · simp only [preChunks, hc, if_false]
      have := ih (b ++ c)
      simpa [List.append_assoc] using this

/-- The kept chunks stop strictly before any buffer that contains the
marker: if the buffer after chunk `j+1` contains the marker, everything
kept is inside the buffer after chunk `j`. -/
theorem preChunks_join_stops (cs : List Str) :
    ∀ (b : Str) (j : Nat), containsSub b openTag = false →
    containsSub (b ++ ((cs.take (j + 1)).flatten)) openTag = true →
    b ++ (preChunks b cs).flatten <+: b ++ (cs.take j).flatten := by
  induction cs with
  | nil =>
    intro b j hb hj
    simp only [List.take_nil, List.flatten_nil, List.append_nil] at hj
    rw [hj] at hb
    exact Bool.noConfusion hb
  | cons c cs ih =>
    intro b j hb hj
    by_cases hc : containsSub (b ++ c) openTag = true
    · simp only [preChunks, hc, if_true, List.flatten_nil, List.append_nil]
      exact List.prefix_append b _
    · cases j with
      | zero =>
        simp only [List.take_succ_cons, List.take_zero, List.flatten_cons,
          List.flatten_nil, List.append_nil] at hj
        exact absurd hj hc
      | succ j =>
        have hj2 : containsSub ((b ++ c) ++ (cs.take (j + 1)).flatten) openTag
            = true := by
          simpa [List.append_assoc] using hj
        have := ih (b ++ c) j (by simpa using hc) hj2
        simp only [preChunks, hc, if_false, List.take_succ_cons,
          List.flatten_cons]
        simpa [List.append_assoc] using this

theorem infix_flatten_of_mem {x : Str} : ∀ {l : List Str}, x ∈ l → x <:+: l.flatten := by
  intro l
  induction l with
  | nil => intro h; cases h
  | cons a t ih =>
    intro h
    rcases List.mem_cons.mp h with rfl | h
    · exact (List.prefix_append x t.flatten).isInfix
    · rcases ih h with ⟨s, t2, hst⟩
      exact ⟨a ++ s, t2, by rw [List.flatten_cons, ← hst]; simp [List.append_assoc]⟩

theorem flatten_take_pre (l : List Str) (n : Nat) :
    (l.take n).flatten <+: l.flatten := by
  conv_rhs => rw [← List.take_append_drop n l]
  rw [List.flatten_append]
  exact List.prefix_append _ _

/-! ## Claims C1 and C6: what the observer is shown -/

/-- C6, counterexample: the claim states that the concatenation of
everything delivered to the observer equals exactly the response text
preceding the first open-tag marker, with no character delivered more than
once.  Splitting the response `a<tool_call>` into the chunks `a` and
`<tool_call>` delivers `a` twice — the chunk is forwarded verbatim, and
the transition chunk then re-forwards the entire buffer prefix before the
marker — so the delivered concatenation is `aa`, not `a`. -/
theorem C6_counterexample_duplicate_forward :
    (streamOutputs true ["a".data, openTag]).flatten = "aa".data ∧
    beforeFirst openTag ("a".data ++ openTag) = "a".data ∧
    ("aa".data : Str) ≠ "a".data := by
  decide

/-- C6, amended: chunks arriving before the marker has been seen are
forwarded verbatim, and on the transition chunk the entire buffer prefix
preceding the marker is forwarded (again); hence the delivered
concatenation equals the chunks preceding the transition chunk followed by
the full response text preceding the first marker — so pre-transition
prose is delivered twice.  When no marker occurs, every chunk is delivered
verbatim exactly once (second conjunct). -/
theorem C6_forwarded_concatenation (chunks : List Str) :
    ((streamOutputs true chunks).flatten =
      (preChunks [] chunks).flatten ++
        (if containsSub chunks.flatten openTag then
          beforeFirst openTag chunks.flatten
         else [])) ∧
    (containsSub chunks.flatten openTag = false →
      streamOutputs true chunks = chunks) := by
  have hrun := streamRun_spec chunks [] (by decide)
  rw [List.nil_append] at hrun
  constructor
  · rw [streamOutputs, hrun, List.flatten_append]
    by_cases hc : containsSub chunks.flatten openTag = true
    · simp only [hc, if_true]
      by_cases he : (beforeFirst openTag chunks.flatten).isEmpty = true
      · simp [he, List.isEmpty_iff.mp he]
      · simp [he]
    · simp [hc]
  · intro hc
    rw [streamOutputs, hrun, hc]
    simp [preChunks_of_not_containsSub chunks [] (by simpa using hc)]

/-- C6, witness: a marker-free response is delivered verbatim. -/
theorem C6_witness : streamOutputs true ["ok".data] = ["ok".data] :=
  (C6_forwarded_concatenation ["ok".data]).2 (by decide)

/-- C1, counterexample: the claim states that no character at or after the
first occurrence of `<tool_call>` is ever passed to the observer, for
every way the response is split into chunks.  When the marker itself is
split across two chunks — response `<tool_call>` as chunks `<tool_` and
`call>` — the first chunk is forwarded verbatim although it consists
entirely of characters at or after the marker occurrence (which starts at
index 0; no character precedes it). -/
theorem C1_counterexample_marker_straddle :
    streamOutputs true ["<tool_".data, "call>".data] = ["<tool_".data] ∧
    "<tool_".data ++ "call>".data = openTag ∧
    beforeFirst openTag openTag = [] ∧
    firstOccIdx openTag openTag = some 0 := by
  decide

/-- C1, amended: provided the first occurrence of the marker lies entirely
within a single chunk (it does not straddle a chunk boundary), every
string passed to the observer is drawn from the response text strictly
before that first occurrence (an infix of it); when there is no marker the
bound is the entire response. -/
theorem C1_no_forward_at_or_after_marker (chunks : List Str)
    (h : ∀ i, firstOccIdx openTag chunks.flatten = some i →
      ∃ m, (chunks.take m).flatten.length ≤ i ∧
           i + openTag.length ≤ (chunks.take (m + 1)).flatten.length) :
    ∀ out ∈ streamOutputs true chunks,
      out <:+: beforeFirst openTag chunks.flatten := by
  have hrun := streamRun_spec chunks [] (by decide)
  rw [List.nil_append] at hrun
  intro out hout
  rw [streamOutputs, hrun] at hout
  cases hocc : firstOccIdx openTag chunks.flatten with
  | none =>
    have hc : containsSub chunks.flatten openTag = false := by
      cases hcc : containsSub chunks.flatten openTag
      · rfl
      · have := containsSub_iff_firstOccIdx_isSome.mp hcc
        rw [hocc] at this
        cases this
    rw [hc] at hout
    simp only [Bool.false_eq_true, if_false, List.append_nil] at hout
    rw [preChunks_of_not_containsSub chunks [] (by simpa using hc)] at hout
    rw [beforeFirst_eq_self_of_not_containsSub hc]
    exact infix_flatten_of_mem hout
  | some i =>
    rcases h i hocc with ⟨m, hm1, hm2⟩
    have hc : containsSub chunks.flatten openTag = true :=
      containsSub_of_firstOccIdx hocc
    have hbf : beforeFirst openTag chunks.flatten = chunks.flatten.take i :=
      beforeFirst_eq_take_of_firstOccIdx hocc
    rw [hc] at hout
    simp only [if_true] at hout
    rcases List.mem_append.mp hout with hpre | hsuf
    · -- a pre-transition chunk, contained in the buffer before chunk m+1
      have hfit : containsSub ((chunks.take (m + 1)).flatten) openTag = true :=
        containsSub_of_fits hocc (flatten_take_pre chunks (m + 1)) hm2
      have hstop := preChunks_join_stops chunks [] m (by decide)
        (by simpa using hfit)
      rw [List.nil_append, List.nil_append] at hstop
      have hlen : (preChunks [] chunks).flatten.length ≤ i :=
        le_trans hstop.length_le (le_of_eq_of_le rfl hm1)
      have hpre2 : (preChunks [] chunks).flatten <+: chunks.flatten := by
        have := preChunks_join_prefix chunks []
        simpa using this
      have htake : (preChunks [] chunks).flatten <+: chunks.flatten.take i :=
        List.prefix_take_iff.mpr ⟨hpre2, hlen⟩
      rw [hbf]
      exact (infix_flatten_of_mem hpre).trans htake.isInfix
    · by_cases he : (beforeFirst openTag chunks.flatten).isEmpty = true
      · rw [if_pos he] at hsuf
        cases hsuf
      · rw [if_neg he] at hsuf
        rcases List.mem_singleton.mp hsuf with rfl
        exact List.infix_refl _

/-- C1, witness: a concrete streamed response whose marker arrives inside
a single chunk; the first forwarded chunk is an infix of the text before
the marker. -/
theorem C1_witness :
    ("hi ".data : Str) <:+:
      beforeFirst openTag (["hi ".data, "there ".data ++ openTag ++ "x".data].flatten) := by
  have h := C1_no_forward_at_or_after_marker
    ["hi ".data, "there ".data ++ openTag ++ "x".data]
    (by
      intro i hi
      have hx : firstOccIdx openTag
          (["hi ".data, "there ".data ++ openTag ++ "x".data].flatten) = some 9 := by
        decide
      rw [hx] at hi
      rcases Option.some.inj hi with rfl
      exact ⟨1, by decide, by decide⟩)
  exact h "hi ".data (by decide)


/-! ### Facts about the cleanup scanners -/

theorem stripClosedAux_of_not_containsSub :
    ∀ (fuel : Nat) (s : Str), containsSub s openTag = false →
    stripClosedAux fuel s = s := by
  intro fuel
  induction fuel with
  | zero => intro s _; rfl
  | succ fuel ih =>
    intro s hs
    cases s with
    | nil => rfl
    | cons c t =>
      simp only [containsSub, Bool.or_eq_false_iff] at hs
      simp only [stripClosedAux, hs.1, Bool.false_eq_true, if_false]
      rw [ih t hs.2]

theorem stripClosed_of_not_containsSub {s : Str}
    (h : containsSub s openTag = false) : stripClosed s = s :=
  stripClosedAux_of_not_containsSub _ s h

theorem stripJsonBlocks_of_none {s : Str} (h : jsonBlockSplit s = none) :
    stripJsonBlocks s = s := by
  rw [stripJsonBlocks, stripJsonBlocksAux, h]

theorem dropWhile_prefix_stable {p : Char → Bool} {x y : Str}
    (hy : List.dropWhile p y = y) (hxy : x <+: y) :
    List.dropWhile p x = x := by
  cases x with
  | nil => rfl
  | cons c t =>
    rcases hxy with ⟨z, rfl⟩
    have hpc : p c = false := by
      by_contra hpc
      have hpc' : p c = true := by simpa using hpc
      rw [List.cons_append, List.dropWhile_cons_of_pos hpc'] at hy
      have hlen := congrArg List.length hy
      rw [List.length_cons] at hlen
      have hle := (List.dropWhile_suffix (l := t ++ z) p).length_le
      omega
    rw [List.dropWhile_cons_of_neg (by simp [hpc])]

theorem trimStr_prefix_dropWhile (s : Str) :
    trimStr s <+: List.dropWhile isJsWs s := by
  rw [trimStr]
  have h1 : List.dropWhile isJsWs (List.dropWhile isJsWs s).reverse <:+
      (List.dropWhile isJsWs s).reverse := List.dropWhile_suffix _
  have := List.reverse_prefix.mpr h1
  simpa using this

theorem trimStr_mid (s : Str) : trimStr s <:+: s :=
  ((trimStr_prefix_dropWhile s).isInfix).trans (List.dropWhile_suffix _).isInfix

theorem trimStr_idem (s : Str) : trimStr (trimStr s) = trimStr s := by
  have hA : List.dropWhile isJsWs (trimStr s) = trimStr s := by
    refine dropWhile_prefix_stable ?_ (trimStr_prefix_dropWhile s)
    exact List.dropWhile_idempotent _ _
  conv_lhs => rw [trimStr, hA]
  rw [trimStr, List.reverse_reverse, List.dropWhile_idempotent]

theorem containsSub_of_mid {t s pat : Str} (h : containsSub t pat = true)
    (hi : t <:+: s) : containsSub s pat = true := by
  rcases hi with ⟨x, y, rfl⟩
  rw [List.append_assoc]
  exact containsSub_append_left x (containsSub_append_right y h)

theorem dropAfterFirst_suffix {pat w r : Str}
    (h : dropAfterFirst pat w = some r) : r <:+ w := by
  induction w with
  | nil =>
    simp only [dropAfterFirst] at h
    split at h
    · cases h; exact List.suffix_refl []
    · cases h
  | cons c t ih =>
    simp only [dropAfterFirst] at h
    split at h
    · cases h; exact List.drop_suffix _ _
    · exact (ih h).trans (List.suffix_cons c t)

theorem dropAfterFirst_length {pat w r : Str}
    (h : dropAfterFirst pat w = some r) : r.length + pat.length ≤ w.length := by
  induction w with
  | nil =>
    simp only [dropAfterFirst] at h
    split at h
    · rename_i he
      cases h
      simp_all [List.isEmpty_iff]
    · cases h
  | cons c t ih =>
    simp only [dropAfterFirst] at h
    split at h
    · rename_i hp
      cases h
      have hl : pat.length ≤ (c :: t).length :=
        (List.isPrefixOf_iff_prefix.mp hp).length_le
      rw [List.length_cons] at hl
      simp only [List.length_drop, List.length_cons]
      omega
    · have := ih h
      simp only [List.length_cons]
      omega

theorem suffix_of_suffix_length_le {l s1 s2 : Str} (h1 : s1 <:+ l)
    (h2 : s2 <:+ l) (h : s1.length ≤ s2.length) : s1 <:+ s2 := by
  have p1 : s1.reverse <+: l.reverse := List.reverse_prefix.mpr h1
  have p2 : s2.reverse <+: l.reverse := List.reverse_prefix.mpr h2
  rcases List.prefix_or_prefix_of_prefix p1 p2 with hp | hp
  · exact List.reverse_prefix.mp hp
  · have heq : s2.reverse = s1.reverse :=
      hp.eq_of_length_le (by simpa using h)
    have heq2 : s2 = s1 := by simpa using congrArg List.reverse heq
    simp [heq2]

theorem dropAfterFirst_nil_pat (v : Str) : dropAfterFirst [] v = some v := by
  cases v with
  | nil => rfl
  | cons c t => simp [dropAfterFirst]

theorem isPrefixOf_append_of_isPrefixOf {pat a : Str} (b : Str)
    (h : pat.isPrefixOf a = true) : pat.isPrefixOf (a ++ b) = true := by
  refine List.isPrefixOf_iff_prefix.mpr ?_
  exact (List.isPrefixOf_iff_prefix.mp h).trans (List.prefix_append a b)

theorem dropAfterFirst_append {pat w r : Str} (v : Str)
    (h : dropAfterFirst pat w = some r) :
    ∃ x r2, dropAfterFirst pat (w ++ v) = some r2 ∧ r2 = x ++ (r ++ v) := by
  induction w generalizing r with
  | nil =>
    simp only [dropAfterFirst] at h
    split at h
    · rename_i he
      cases h
      have hpat : pat = [] := List.isEmpty_iff.mp he
      subst hpat
      exact ⟨[], v, by simpa using dropAfterFirst_nil_pat v⟩
    · cases h
  | cons c t ih =>
    by_cases hp : pat.isPrefixOf (c :: t) = true
    · simp only [dropAfterFirst, hp, if_true, Option.some_inj] at h
      have hp2 : pat.isPrefixOf (c :: (t ++ v)) = true := by
        have := isPrefixOf_append_of_isPrefixOf v hp
        rwa [List.cons_append] at this
      have hl : pat.length ≤ (c :: t).length :=
        (List.isPrefixOf_iff_prefix.mp hp).length_le
      refine ⟨[], r ++ v, ?_, by simp⟩
      rw [List.cons_append]
      simp only [dropAfterFirst, hp2, if_true, Option.some_inj]
      rw [← h, ← List.cons_append, List.drop_append_of_le_length hl]
    · simp only [dropAfterFirst, hp, Bool.false_eq_true, if_false] at h
      rcases ih h with ⟨x, r2t, hEq, hx⟩
      by_cases hp2 : pat.isPrefixOf (c :: (t ++ v)) = true
      · have hsufr2 : r2t <:+ (c :: (t ++ v)) :=
          (dropAfterFirst_suffix hEq).trans (List.suffix_cons c (t ++ v))
        have hlen2 : r2t.length + pat.length ≤ (t ++ v).length :=
          dropAfterFirst_length hEq
        have hnested : r2t <:+ List.drop pat.length (c :: (t ++ v)) := by
          refine suffix_of_suffix_length_le hsufr2 (List.drop_suffix _ _) ?_
          rw [List.length_append] at hlen2
          simp only [List.length_drop, List.length_cons, List.length_append]
          omega
        rcases hnested with ⟨y, hy⟩
        refine ⟨y ++ x, List.drop pat.length (c :: (t ++ v)), ?_, ?_⟩
        · rw [List.cons_append]
          simp only [dropAfterFirst, hp2, if_true]
        · rw [← hy, hx, List.append_assoc]
      · refine ⟨x, r2t, ?_, hx⟩
        rw [List.cons_append]
        simp only [dropAfterFirst, hp2, Bool.false_eq_true, if_false]
        exact hEq

theorem fence3_ne_nil : fence3 ≠ [] := by decide

theorem closeSearch_append {w : Str} (v : Str)
    (h : (closeSearch w).isSome = true) :
    (closeSearch (w ++ v)).isSome = true := by
  induction w with
  | nil => simp [closeSearch] at h
  | cons c t ih =>
    by_cases hcond : (c = rbrace && fence3.isPrefixOf (t.dropWhile isJsWs)) = true
    · have hdw : (t.dropWhile isJsWs) ≠ [] := by
        intro hnil
        have h2 : fence3.isPrefixOf (t.dropWhile isJsWs) = true := by
          have hcond' := hcond
          simp only [Bool.and_eq_true] at hcond'
          exact hcond'.2
        rw [hnil] at h2
        have h3 : fence3.isPrefixOf ([] : Str) = false := by decide
        rw [h3] at h2
        cases h2
      have hdw2 : (t ++ v).dropWhile isJsWs = t.dropWhile isJsWs ++ v := by
        rw [List.dropWhile_append]
        simp [List.isEmpty_iff, hdw]
      have hcond2 : (c = rbrace && fence3.isPrefixOf ((t ++ v).dropWhile isJsWs))
          = true := by
        rw [hdw2]
        simp only [Bool.and_eq_true] at hcond ⊢
        exact ⟨hcond.1, isPrefixOf_append_of_isPrefixOf v hcond.2⟩
      rw [List.cons_append, closeSearch]
      simp [hcond2]
    · simp only [closeSearch, hcond, Bool.false_eq_true, if_false] at h
      rw [List.cons_append, closeSearch]
      by_cases hcond2 : (c = rbrace &&
          fence3.isPrefixOf ((t ++ v).dropWhile isJsWs)) = true
      · simp [hcond2]
      · simpa [hcond2] using ih h

theorem closeSearch_prepend {w : Str} (x : Str)
    (h : (closeSearch w).isSome = true) :
    (closeSearch (x ++ w)).isSome = true := by
  induction x with
  | nil => simpa using h
  | cons c t ih =>
    rw [List.cons_append, closeSearch]
    by_cases hcond : (c = rbrace &&
        fence3.isPrefixOf ((t ++ w).dropWhile isJsWs)) = true
    · simp [hcond]
    · simpa [hcond] using ih

theorem blockMatchAt_append {u : Str} (v : Str)
    (h : (blockMatchAt u).isSome = true) :
    (blockMatchAt (u ++ v)).isSome = true := by
  rw [blockMatchAt] at h
  by_cases hf : fenceJson.isPrefixOf u = true
  case neg => simp [hf] at h
  rw [if_pos hf] at h
  have hfl : fenceJson.length ≤ u.length :=
    (List.isPrefixOf_iff_prefix.mp hf).length_le
  have hf2 : fenceJson.isPrefixOf (u ++ v) = true :=
    isPrefixOf_append_of_isPrefixOf v hf
  rw [blockMatchAt, if_pos hf2, List.drop_append_of_le_length hfl]
  cases hw : (List.drop fenceJson.length u).dropWhile isJsWs with
  | nil => rw [hw] at h; simp [blockBody] at h
  | cons c r2 =>
    rw [hw] at h
    have hw2 : (List.drop fenceJson.length u ++ v).dropWhile isJsWs
        = c :: (r2 ++ v) := by
      rw [List.dropWhile_append, hw]
      simp
    rw [hw2]
    simp only [blockBody] at h ⊢
    by_cases hc : c = lbrace
    case neg => simp [hc] at h
    rw [if_pos hc] at h
    rw [if_pos hc]
    simp only [blockAfterBrace] at h ⊢
    cases hda : dropAfterFirst toolCallsKey r2 with
    | none => rw [hda] at h; simp at h
    | some r3 =>
      rw [hda] at h
      rcases dropAfterFirst_append v hda with ⟨x, r2v, hEq, rfl⟩
      rw [hEq]
      exact closeSearch_prepend x (closeSearch_append v h)

theorem exists_suffix_of_jsonBlockSplit {s : Str}
    (h : (jsonBlockSplit s).isSome = true) :
    ∃ u, u <:+ s ∧ (blockMatchAt u).isSome = true := by
  induction s with
  | nil => simp [jsonBlockSplit] at h
  | cons c t ih =>
    rw [jsonBlockSplit] at h
    cases hb : blockMatchAt (c :: t) with
    | some rem => exact ⟨c :: t, List.suffix_refl _, by simp [hb]⟩
    | none =>
      rw [hb] at h
      cases hs : jsonBlockSplit t with
      | none => rw [hs] at h; simp at h
      | some pr =>
        rcases ih (by simp [hs]) with ⟨u, hu, hm⟩
        exact ⟨u, hu.trans (List.suffix_cons c t), hm⟩

theorem jsonBlockSplit_isSome_of_suffix {s u : Str} (hsuf : u <:+ s)
    (h : (blockMatchAt u).isSome = true) :
    (jsonBlockSplit s).isSome = true := by
  induction s with
  | nil =>
    have hu : u = [] := List.suffix_nil.mp hsuf
    rw [hu] at h
    have h3 : (blockMatchAt []).isSome = false := by decide
    rw [h3] at h
    cases h
  | cons c t ih =>
    rw [jsonBlockSplit]
    cases hb : blockMatchAt (c :: t) with
    | some rem => simp
    | none =>
      rcases List.suffix_cons_iff.mp hsuf with rfl | hsuf2
      · rw [hb] at h; cases h
      · have := ih hsuf2
        cases hs : jsonBlockSplit t with
        | none => rw [hs] at this; cases this
        | some pr => simp [hs]

theorem jsonBlockSplit_mono_mid {t s : Str} (hi : t <:+: s)
    (h : (jsonBlockSplit t).isSome = true) :
    (jsonBlockSplit s).isSome = true := by
  rcases exists_suffix_of_jsonBlockSplit h with ⟨u, hu, hm⟩
  rcases hi with ⟨x, y, rfl⟩
  rcases hu with ⟨z, rfl⟩
  have hsuf : u ++ y <:+ x ++ (z ++ u) ++ y := by
    refine ⟨x ++ z, ?_⟩
    simp [List.append_assoc]
  exact jsonBlockSplit_isSome_of_suffix hsuf (blockMatchAt_append y hm)

theorem hasProtocolMarkup_trimStr {r : Str}
    (h : hasProtocolMarkup r = false) :
    hasProtocolMarkup (trimStr r) = false := by
  simp only [hasProtocolMarkup, Bool.or_eq_false_iff] at h ⊢
  constructor
  · cases hc : containsSub (trimStr r) openTag
    · rfl
    · rw [containsSub_of_mid hc (trimStr_mid r)] at h
      exact absurd h.1 (by simp)
  · cases hj : (jsonBlockSplit (trimStr r)).isSome
    · rfl
    · rw [jsonBlockSplit_mono_mid (trimStr_mid r) hj] at h
      exact absurd h.2 (by simp)

/-! ## Claim C7: `cleanResponse` on markup-free responses -/

/-- C7, counterexample.  First conjunct: `cleanResponse` is not the
identity on markup-free responses, because the final `.trim()` strips
surrounding whitespace (`" hi "` becomes `"hi"`).  Second conjunct:
`cleanResponse` is not idempotent: removing the fenced json block from
`<tool_` ++ fenced-block ++ `call>X` splices the two halves into a fresh
`<tool_call>X`, which a second application then removes entirely. -/
theorem C7_counterexample_trim_and_splice :
    (hasProtocolMarkup " hi ".data = false ∧
      cleanResponse " hi ".data ≠ " hi ".data) ∧
    cleanResponse (cleanResponse
        ("<tool_".data ++ "```json\x7b\"tool_calls\":[]\x7d```".data ++
          "call>X".data)) ≠
      cleanResponse
        ("<tool_".data ++ "```json\x7b\"tool_calls\":[]\x7d```".data ++
          "call>X".data) := by
  decide

/-- C7, amended: on a response with no protocol markup, `cleanResponse`
returns the response with surrounding whitespace trimmed — the identity
exactly on already-trimmed responses — and on such responses cleaning
twice equals cleaning once. -/
theorem C7_clean_markup_free (r : Str) (h : hasProtocolMarkup r = false) :
    cleanResponse r = trimStr r ∧
    cleanResponse (cleanResponse r) = cleanResponse r ∧
    (trimStr r = r → cleanResponse r = r) := by
  have hsplit : ∀ x : Str, hasProtocolMarkup x = false → cleanResponse x = trimStr x := by
    intro x hx
    simp only [hasProtocolMarkup, Bool.or_eq_false_iff] at hx
    have hj : jsonBlockSplit x = none := by
      cases hjx : jsonBlockSplit x
      · rfl
      · rw [hjx] at hx
        exact absurd hx.2 (by simp)
    rw [cleanResponse, stripClosed_of_not_containsSub hx.1, stripUnclosed,
      beforeFirst_eq_self_of_not_containsSub hx.1, stripJsonBlocks_of_none hj]
  have h1 : cleanResponse r = trimStr r := hsplit r h
  refine ⟨h1, ?_, ?_⟩
  · rw [h1, hsplit (trimStr r) (hasProtocolMarkup_trimStr h), trimStr_idem]
  · intro ht
    rw [h1, ht]

/-- C7, witness: a markup-free, already-trimmed response is returned
unchanged. -/
theorem C7_witness : cleanResponse "ok".data = "ok".data :=
  (C7_clean_markup_free "ok".data (by decide)).2.2 (by decide)


/-! ## Claim C4: format precedence in `parseToolCalls` -/

/-- C4 (confirmed): the three recognized formats are tried in precedence
order — closed tag pairs, then unclosed open tag, then fenced json block —
and the first format yielding at least one accepted request wins, later
formats not being tried; within the closed-tag format an occurrence whose
JSON fails to parse is skipped without affecting the other occurrences;
and when no format yields a request the result is the empty list (the
function is total — no error case exists). -/
theorem C4_format_precedence (r : Str) :
    (closedCalls r ≠ [] → parseToolCalls r = closedCalls r) ∧
    (closedCalls r = [] → openCalls r ≠ [] → parseToolCalls r = openCalls r) ∧
    (closedCalls r = [] → openCalls r = [] → parseToolCalls r = blockCalls r) ∧
    (closedCalls r = [] → openCalls r = [] → blockCalls r = [] →
      parseToolCalls r = []) ∧
    (∀ pre cap post, closedCaptures r = pre ++ cap :: post →
      Json.parse cap = none →
      closedCalls r = pre.filterMap closedEntry ++ post.filterMap closedEntry) := by
  refine ⟨?_, ?_, ?_, ?_, ?_⟩
  · intro h
    rw [parseToolCalls, if_pos (List.length_pos.mpr h)]
  · intro h1 h2
    rw [parseToolCalls, if_neg (by simp [h1]), if_pos (List.length_pos.mpr h2)]
  · intro h1 h2
    rw [parseToolCalls, if_neg (by simp [h1]), if_neg (by simp [h2])]
  · intro h1 h2 h3
    rw [parseToolCalls, if_neg (by simp [h1]), if_neg (by simp [h2]), h3]
  · intro pre cap post hcap hparse
    rw [closedCalls, hcap, List.filterMap_append, List.filterMap_cons]
    simp [closedEntry, hparse]

/-- C4, witness: a closed-pair response takes format 1, and a plain
response reaches the block format and yields nothing. -/
theorem C4_witness :
    parseToolCalls
        "<tool_call>\x7b\"name\":\"t\",\"arguments\":\x7b\x7d\x7d</tool_call>".data
      = closedCalls
        "<tool_call>\x7b\"name\":\"t\",\"arguments\":\x7b\x7d\x7d</tool_call>".data ∧
    parseToolCalls "plain answer".data = blockCalls "plain answer".data := by
  constructor
  · refine (C4_format_precedence _).1 ?_
    rw [show closedCalls
        "<tool_call>\x7b\"name\":\"t\",\"arguments\":\x7b\x7d\x7d</tool_call>".data
      = [⟨Json.str "t".data, Json.obj []⟩] from rfl]
    exact List.cons_ne_nil _ _
  · exact (C4_format_precedence _).2.2.1 rfl rfl

/-! ## Claim C9: the acceptance check -/

/-- C9, counterexample: the claim requires `arguments` to be a structured
key-value object — "not a scalar, not null, and not absent".  But the
code's check is `typeof parsed.arguments === "object"`, and in JS
`typeof null === "object"`, so a candidate with `arguments: null` is
accepted and returned. -/
theorem C9_counterexample_null_arguments :
    parseToolCalls
        "<tool_call>\x7b\"name\":\"x\",\"arguments\":null\x7d</tool_call>".data
      = [⟨Json.str "x".data, Json.null⟩] ∧
    Json.null.typeofObject = true :=
  ⟨rfl, rfl⟩

/-- C9, amended: a candidate is accepted exactly when its `name` field is
present and JS-truthy (any truthy JSON value — in particular any non-empty
string, but also e.g. non-zero numbers) and its `arguments` field is
present with JS `typeof` equal to `"object"` — which holds for key-value
objects but also for arrays and for `null`; scalar or absent `arguments`
and falsy (e.g. empty-string or absent) names are rejected. -/
theorem C9_acceptance_check :
    (∀ j n a, j.getField "name".data = some n → n.truthy = true →
      j.getField "arguments".data = some a → a.typeofObject = true →
      validateCall j = some ⟨n, a⟩) ∧
    (∀ j, j.getField "name".data = none → validateCall j = none) ∧
    (∀ j n, j.getField "name".data = some n → n.truthy = false →
      validateCall j = none) ∧
    (∀ j, j.getField "arguments".data = none → validateCall j = none) ∧
    (∀ j a, j.getField "arguments".data = some a → a.typeofObject = false →
      validateCall j = none) ∧
    (Json.str []).truthy = false ∧
    Json.null.typeofObject = true ∧
    (Json.arr []).typeofObject = true ∧
    (Json.str "s".data).typeofObject = false ∧
    (Json.num "1".data).typeofObject = false := by
  refine ⟨?_, ?_, ?_, ?_, ?_, rfl, rfl, rfl, rfl, rfl⟩
  · intro j n a hn ht ha hto
    simp [validateCall, hn, ht, ha, hto]
  · intro j hn
    simp [validateCall, hn]
  · intro j n hn ht
    simp [validateCall, hn, ht]
  · intro j ha
    cases hn : j.getField "name".data with
    | none => simp [validateCall, hn]
    | some n =>
      by_cases ht : n.truthy = true
      · simp [validateCall, hn, ht, ha]
      · simp [validateCall, hn, ht]
  · intro j a ha hto
    cases hn : j.getField "name".data with
    | none => simp [validateCall, hn]
    | some n =>
      by_cases ht : n.truthy = true
      · simp [validateCall, hn, ht, ha, hto]
      · simp [validateCall, hn, ht]

/-- C9, witness: a non-empty name with a genuine object for arguments is
accepted. -/
theorem C9_witness :
    validateCall (Json.obj [("name".data, Json.str "x".data),
        ("arguments".data, Json.obj [])])
      = some ⟨Json.str "x".data, Json.obj []⟩ :=
  C9_acceptance_check.1 _ _ _ rfl rfl rfl rfl

/-! ## Claim C5: the unclosed-tag format and its fallback -/

theorem dropWhile_cons_false {p : Char → Bool} :
    ∀ {l : Str} {c : Char} {r : Str}, List.dropWhile p l = c :: r → p c = false := by
  intro l
  induction l with
  | nil => intro c r h; cases h
  | cons a t ih =>
    intro c r h
    by_cases hp : p a = true
    · rw [List.dropWhile_cons_of_pos hp] at h
      exact ih h
    · rw [List.dropWhile_cons_of_neg hp] at h
      cases h
      simpa using hp

theorem specBraceGo_run :
    ∀ (run : Str) (acc : Str) (d : Nat) (rest : Str),
    (∀ c ∈ run, nonBrace c = true) →
    specBraceGo acc d (run ++ rest) = specBraceGo (acc ++ run) d rest := by
  intro run
  induction run with
  | nil => intro acc d rest _; simp
  | cons c run ih =>
    intro acc d rest hall
    have hc : nonBrace c = true := hall c (by simp)
    have hcl : ¬ c = lbrace := by
      intro hh
      rw [hh] at hc
      simp [nonBrace] at hc
    have hcr : ¬ c = rbrace := by
      intro hh
      rw [hh] at hc
      simp [nonBrace] at hc
    rw [List.cons_append, specBraceGo, if_neg hcr, if_neg hcl,
      ih (acc ++ [c]) d rest (fun x hx => hall x (by simp [hx]))]
    congr 1
    simp

theorem innerScanF_agrees_specBraceGo :
    ∀ (fuel : Nat) (acc rest out : Str),
    innerScanF fuel acc rest = some out →
    specBraceGo acc 1 rest = some out := by
  intro fuel
  induction fuel with
  | zero => intro acc rest out h; cases h
  | succ fuel ih =>
    intro acc rest out h
    rw [innerScanF] at h
    have hsplit : rest.takeWhile nonBrace ++ rest.dropWhile nonBrace = rest :=
      List.takeWhile_append_dropWhile _ _
    cases hd : rest.dropWhile nonBrace with
    | nil => rw [hd] at h; cases h
    | cons c r2 =>
      rw [hd] at h
      simp only [innerStep] at h
      have hrun : ∀ x ∈ rest.takeWhile nonBrace, nonBrace x = true :=
        fun x hx => List.mem_takeWhile_imp hx
      have hstep : specBraceGo acc 1 rest
          = specBraceGo (acc ++ rest.takeWhile nonBrace) 1 (c :: r2) := by
        conv_lhs => rw [← hsplit, hd]
        exact specBraceGo_run _ acc 1 (c :: r2) hrun
      by_cases hcr : c = rbrace
      · rw [if_pos hcr] at h
        cases h
        rw [hstep, hcr, specBraceGo, if_pos rfl, if_pos rfl]
      · rw [if_neg hcr] at h
        have hcl : c = lbrace := by
          have hnb : nonBrace c = false := dropWhile_cons_false hd
          simp only [nonBrace, Bool.and_eq_false_iff, Bool.not_eq_false',
            beq_iff_eq] at hnb
          rcases hnb with hh | hh
          · exact hh
          · exact absurd hh hcr
        cases hd2 : r2.dropWhile nonBrace with
        | nil => rw [hd2] at h; simp [innerStep2] at h
        | cons c2 r4 =>
          rw [hd2] at h
          simp only [innerStep2] at h
          by_cases hc2 : c2 = rbrace
          · rw [if_pos hc2] at h
            have hrec := ih _ _ _ h
            rw [hstep, hcl, specBraceGo]
            rw [if_neg (by decide), if_pos rfl]
            have hsplit2 : r2.takeWhile nonBrace ++ r2.dropWhile nonBrace = r2 :=
              List.takeWhile_append_dropWhile _ _
            have hrun2 : ∀ x ∈ r2.takeWhile nonBrace, nonBrace x = true :=
              fun x hx => List.mem_takeWhile_imp hx
            have hstep2 : specBraceGo (acc ++ rest.takeWhile nonBrace ++ [lbrace]) 2 r2
                = specBraceGo (acc ++ rest.takeWhile nonBrace ++ [lbrace]
                    ++ r2.takeWhile nonBrace) 2 (c2 :: r4) := by
              conv_lhs => rw [← hsplit2, hd2]
              exact specBraceGo_run _ _ 2 (c2 :: r4) hrun2
            have hone : (2 : Nat) - 1 = 1 := by decide
            rw [hstep2, hc2, specBraceGo, if_pos rfl, if_neg (by decide), hone,
              ← hrec]
          · rw [if_neg hc2] at h
            cases h

/-- C5, counterexample: for an unclosed tag whose object nests braces two
levels deep inside `arguments`, the greedy capture (up to the last `}` of
the trailing prose) fails to parse, the shortest balanced-brace prefix is
a valid request — yet `parseToolCalls` returns no call at all: the code's
fallback regex `^\{[^{}]*(?:\{[^{}]*\}[^{}]*)*\}` only matches one level
of nesting, so it is not the brace-depth matching the claim describes. -/
theorem C5_counterexample_nested_fallback :
    parseToolCalls
        "<tool_call>\x7b\"name\":\"x\",\"arguments\":\x7b\"a\":\x7b\"b\":1\x7d\x7d\x7d tail \x7bx\x7d".data
      = [] ∧
    openCaptures
        "<tool_call>\x7b\"name\":\"x\",\"arguments\":\x7b\"a\":\x7b\"b\":1\x7d\x7d\x7d tail \x7bx\x7d".data
      = ["\x7b\"name\":\"x\",\"arguments\":\x7b\"a\":\x7b\"b\":1\x7d\x7d\x7d tail \x7bx\x7d".data] ∧
    Json.parse
        "\x7b\"name\":\"x\",\"arguments\":\x7b\"a\":\x7b\"b\":1\x7d\x7d\x7d tail \x7bx\x7d".data
      = none ∧
    specBraceBalancedPrefix
        "\x7b\"name\":\"x\",\"arguments\":\x7b\"a\":\x7b\"b\":1\x7d\x7d\x7d tail \x7bx\x7d".data
      = some "\x7b\"name\":\"x\",\"arguments\":\x7b\"a\":\x7b\"b\":1\x7d\x7d\x7d".data ∧
    (Json.parse
        "\x7b\"name\":\"x\",\"arguments\":\x7b\"a\":\x7b\"b\":1\x7d\x7d\x7d".data).bind
        validateCall
      = some ⟨Json.str "x".data,
          Json.obj [("a".data, Json.obj [("b".data, Json.num "1".data)])]⟩ :=
  ⟨rfl, rfl, rfl, rfl, rfl⟩

/-- C5, amended: for an unclosed open tag the code parses the greedy
capture (from the brace after the tag to the last `}` of the text) as a
single JSON object; only when that parse fails does it fall back — not to
general brace-depth matching, but to the anchored pattern
`^\{[^{}]*(?:\{[^{}]*\}[^{}]*)*\}`, which agrees with the shortest
balanced-brace prefix whenever it matches but matches only objects whose
braces nest at most one level deep; deeper nesting yields no call.  The
claim's concrete example (flat trailing prose, or prose containing
braces) is recovered. -/
theorem C5_unclosed_tag_greedy_and_fallback :
    (∀ cap p, Json.parse cap = some p → openEntry cap = validateCall p) ∧
    (∀ cap, Json.parse cap = none →
      openEntry cap = (innerBalanced cap).bind
        (fun inner => (Json.parse inner).bind validateCall)) ∧
    (∀ s inner, innerBalanced s = some inner →
      specBraceBalancedPrefix s = some inner) ∧
    parseToolCalls
        "<tool_call>\x7b\"name\":\"x\",\"arguments\":\x7b\"a\":1\x7d\x7d some trailing prose.".data
      = [⟨Json.str "x".data, Json.obj [("a".data, Json.num "1".data)]⟩] ∧
    parseToolCalls
        "<tool_call>\x7b\"name\":\"x\",\"arguments\":\x7b\"a\":1\x7d\x7d ok \x7byes\x7d".data
      = [⟨Json.str "x".data, Json.obj [("a".data, Json.num "1".data)]⟩] := by
  refine ⟨?_, ?_, ?_, rfl, rfl⟩
  · intro cap p h
    simp [openEntry, h]
  · intro cap h
    rw [openEntry, h]
    cases hi : innerBalanced cap with
    | none => simp
    | some inner => cases hp : Json.parse inner <;> simp [hp]
  · intro s inner h
    cases s with
    | nil => cases h
    | cons c r =>
      rw [innerBalanced] at h
      by_cases hc : c = lbrace
      · rw [if_pos hc] at h
        rw [specBraceBalancedPrefix, if_pos hc]
        exact innerScanF_agrees_specBraceGo _ _ _ _ h
      · rw [if_neg hc] at h
        cases h

/-- C5, witness: the fallback pattern, where it succeeds, returns the
brace-depth balanced prefix; and a greedy capture that parses directly is
used as-is. -/
theorem C5_witness :
    specBraceBalancedPrefix "\x7ba\x7d junk".data = some "\x7ba\x7d".data ∧
    openEntry "\x7b\"name\":\"y\",\"arguments\":\x7b\x7d\x7d".data
      = validateCall (Json.obj [("name".data, Json.str "y".data),
          ("arguments".data, Json.obj [])]) :=
  ⟨C5_unclosed_tag_greedy_and_fallback.2.2.1 _ _ rfl,
   C5_unclosed_tag_greedy_and_fallback.1 _ _ rfl⟩


/-! ### Cache and store lemmas -/

theorem cacheGet_append_nil (uid : Str) :
    ∀ (c : Cache) (u : Str), cacheGet (c ++ [(uid, [])]) u = cacheGet c u := by
  intro c
  induction c with
  | nil =>
    intro u
    by_cases hp : (uid == u) = true
    · simp [cacheGet, List.find?, hp]
    · simp [cacheGet, List.find?, hp]
  | cons p t ih =>
    intro u
    by_cases hp : (p.1 == u) = true
    · simp [cacheGet, List.find?, hp]
    · simp only [List.cons_append, cacheGet, List.find?, hp]
      exact ih u

theorem cacheGet_ensure (c : Cache) (uid u : Str) :
    cacheGet (ensureCacheEntry c uid) u = cacheGet c u := by
  rw [ensureCacheEntry]
  by_cases h : cacheHas c uid = true
  · rw [if_pos h]
  · rw [if_neg h, cacheGet_append_nil]

theorem cacheGet_cons (x : Str × List ConversationEntry) (t : Cache) (u : Str) :
    cacheGet (x :: t) u = if (x.1 == u) = true then x.2 else cacheGet t u := by
  by_cases hx : (x.1 == u) = true
  · simp [cacheGet, List.find?, hx]
  · simp [cacheGet, List.find?, hx]

theorem cacheGet_set_same (uid : Str) (v : List ConversationEntry) :
    ∀ c : Cache, cacheGet (cacheSet c uid v) uid = v := by
  have hmap : ∀ c : Cache, cacheHas c uid = true →
      cacheGet (c.map (fun p => if p.1 == uid then (p.1, v) else p)) uid = v := by
    intro c
    induction c with
    | nil => intro h; simp [cacheHas] at h
    | cons p t ih =>
      intro h
      by_cases hp : (p.1 == uid) = true
      · rw [List.map_cons, if_pos hp]
        simp [cacheGet_cons, hp]
      · have ht : cacheHas t uid = true := by
          simp only [cacheHas, List.any_cons, Bool.or_eq_true] at h
          exact h.resolve_left (by simpa using hp)
        rw [List.map_cons, if_neg hp, cacheGet_cons, if_neg hp]
        exact ih ht
  intro c
  rw [cacheSet]
  by_cases h : cacheHas c uid = true
  · rw [if_pos h]
    exact hmap c h
  · rw [if_neg h]
    have hnone : ∀ c2 : Cache, cacheHas c2 uid = false →
        cacheGet (c2 ++ [(uid, v)]) uid = v := by
      intro c2
      induction c2 with
      | nil => intro _; simp [cacheGet, List.find?]
      | cons p t ih =>
        intro hh
        simp only [cacheHas, List.any_cons, Bool.or_eq_false_iff] at hh
        simp only [List.cons_append, cacheGet, List.find?, hh.1]
        exact ih (by simp [cacheHas, hh.2])
    exact hnone c (by simpa using h)

theorem cacheGet_set_ne {u uid : Str} (hne : ¬ u = uid)
    (v : List ConversationEntry) :
    ∀ c : Cache, cacheGet (cacheSet c uid v) u = cacheGet c u := by
  have hmap : ∀ c : Cache,
      cacheGet (c.map (fun p => if p.1 == uid then (p.1, v) else p)) u
        = cacheGet c u := by
    intro c
    induction c with
    | nil => rfl
    | cons p t ih =>
      by_cases hp : (p.1 == uid) = true
      · have hpu : ¬ (p.1 == u) = true := by
          have hpe : p.1 = uid := by simpa using hp
          simp [hpe]
          intro hcon
          exact absurd hcon.symm hne
        rw [List.map_cons, if_pos hp, cacheGet_cons, cacheGet_cons]
        have hred : (((p.1, v) : Str × List ConversationEntry).1 == u)
            = (p.1 == u) := rfl
        rw [hred, if_neg hpu, if_neg hpu]
        exact ih
      · rw [List.map_cons, if_neg hp, cacheGet_cons, cacheGet_cons]
        by_cases hpu : (p.1 == u) = true
        · rw [if_pos hpu, if_pos hpu]
        · rw [if_neg hpu, if_neg hpu]
          exact ih
  intro c
  rw [cacheSet]
  by_cases h : cacheHas c uid = true
  · rw [if_pos h]
    exact hmap c
  · rw [if_neg h]
    have happ : ∀ c2 : Cache, cacheGet (c2 ++ [(uid, v)]) u = cacheGet c2 u := by
      intro c2
      induction c2 with
      | nil =>
        have : (uid == u) = false := by
          simp
          intro hcon
          exact absurd hcon.symm hne
        simp [cacheGet, List.find?, this]
      | cons p t ih =>
        by_cases hpu : (p.1 == u) = true
        · simp [cacheGet, List.find?, hpu]
        · simp only [List.cons_append, cacheGet, List.find?, hpu]
          exact ih
    exact happ c

theorem storeGet_append_same (s : Store) (uid : Str) (e : ConversationEntry) :
    storeGet (storeAppend s uid e) uid = storeGet s uid ++ [e] := by
  rw [storeAppend, storeGet, storeGet]
  exact cacheGet_set_same uid _ s

theorem storeGet_append_ne {u uid : Str} (hne : ¬ u = uid) (s : Store)
    (e : ConversationEntry) :
    storeGet (storeAppend s uid e) u = storeGet s u := by
  rw [storeAppend, storeGet, storeGet]
  exact cacheGet_set_ne hne _ s

theorem shiftWhile_suffix (bound : Nat) :
    ∀ l : List ConversationEntry, shiftWhile bound l <:+ l := by
  intro l
  induction l with
  | nil => exact List.suffix_refl _
  | cons e t ih =>
    rw [shiftWhile]
    by_cases h : t.length + 1 > bound
    · rw [if_pos h]
      exact ih.trans (List.suffix_cons e t)
    · rw [if_neg h]

theorem shiftWhile_length_le (bound : Nat) :
    ∀ l : List ConversationEntry, (shiftWhile bound l).length ≤ bound := by
  intro l
  induction l with
  | nil => simp [shiftWhile]
  | cons e t ih =>
    rw [shiftWhile]
    by_cases h : t.length + 1 > bound
    · rw [if_pos h]
      exact ih
    · rw [if_neg h]
      simpa using Nat.le_of_not_lt h

theorem suffix_map {α β : Type} (f : α → β) {s t : List α} (h : s <:+ t) :
    s.map f <:+ t.map f := by
  rcases h with ⟨a, rfl⟩
  exact ⟨a.map f, (List.map_append f a s).symm⟩

theorem suffix_append_right {α : Type} {s t : List α} (x : List α)
    (h : s <:+ t) : s ++ x <:+ t ++ x := by
  rcases h with ⟨a, rfl⟩
  exact ⟨a, (List.append_assoc a s x).symm⟩

/-! ## Claim C10: a thrown model error fails the turn without persisting -/

/-- C10 (confirmed): when the model collaborator throws during a turn,
the error propagates to the caller of `agent.chat` (second conjunct) and
the turn leaves the user's conversation history unchanged: every user's
in-memory cache entry is unchanged and the durable store is untouched
(first conjunct — persistence happens only on the success paths). -/
theorem C10_model_error_propagates_and_preserves_history :
    (∀ env cfg st um uid us now e st2,
      chat env cfg st um uid us now = (.error e, st2) →
      st2.store = st.store ∧ ∀ u, cacheGet st2.cache u = cacheGet st.cache u) ∧
    (∀ env cfg st um uid us now e,
      (∀ msgs, env.llm.chat msgs = .error e) →
      (∀ msgs, env.llm.chatStream msgs = .error e) →
      (chat env cfg st um uid us now).1 = .error e) := by
  have hloop : ∀ (env : AgentEnv) us msgs isFirst n calls rounds outs e,
      (∀ ms, env.llm.chat ms = .error e) →
      (∀ ms, env.llm.chatStream ms = .error e) →
      runLoop env us msgs isFirst n calls rounds outs = .error e := by
    intro env us msgs isFirst n calls rounds outs e hchat hstream
    cases n with
    | zero => rw [runLoop, hchat]
    | succ n =>
      rw [runLoop]
      cases us with
      | true => rw [if_pos rfl, hstream]
      | false => rw [if_neg (by simp), hchat]
  constructor
  · intro env cfg st um uid us now e st2 h
    rw [chat] at h
    cases hrl : runLoop env us (mkMessages env st.cache uid um) true
        cfg.maxToolCalls 0 0 [] with
    | error e2 =>
      rw [hrl] at h
      rw [Prod.mk.injEq] at h
      rw [← h.2]
      exact ⟨rfl, fun u => cacheGet_ensure st.cache uid u⟩
    | ok out =>
      rw [hrl] at h
      rw [Prod.mk.injEq] at h
      exact absurd h.1 (by simp)
  · intro env cfg st um uid us now e hchat hstream
    rw [chat, hloop env us _ true cfg.maxToolCalls 0 0 [] e hchat hstream]

/-- C10, witness: with an always-throwing model, a concrete turn returns
the thrown error and leaves a concrete one-user state untouched. -/
theorem C10_witness :
    ((chat throwEnv ⟨10, 20⟩
        ⟨[("u".data, [⟨Role.user, "m".data, 5⟩])],
          [("u".data, [⟨Role.user, "m".data, 5⟩])]⟩
        "hi".data "u".data false 7).1 = .error "boom".data) ∧
    (chat throwEnv ⟨10, 20⟩
        ⟨[("u".data, [⟨Role.user, "m".data, 5⟩])],
          [("u".data, [⟨Role.user, "m".data, 5⟩])]⟩
        "hi".data "u".data false 7).2.store
      = [("u".data, [⟨Role.user, "m".data, 5⟩])] ∧
    cacheGet (chat throwEnv ⟨10, 20⟩
        ⟨[("u".data, [⟨Role.user, "m".data, 5⟩])],
          [("u".data, [⟨Role.user, "m".data, 5⟩])]⟩
        "hi".data "u".data false 7).2.cache "u".data
      = [⟨Role.user, "m".data, 5⟩] := by
  refine ⟨?_, rfl, rfl⟩
  exact C10_model_error_propagates_and_preserves_history.2 throwEnv ⟨10, 20⟩ _
    "hi".data "u".data false 7 "boom".data (fun ms => rfl) (fun ms => rfl)

/-! ## Claim C3: N executing rounds, then one forced final call -/

theorem runLoop_succ_chat (env : AgentEnv) (msgs : List ChatMessage)
    (isFirst : Bool) (n calls rounds : Nat) (outs : List Str) (resp : Str)
    (hok : env.llm.chat msgs = .ok resp) :
    runLoop env false msgs isFirst (n + 1) calls rounds outs =
      if (parseToolCalls resp).length = 0 then
        .ok ⟨resp, calls + 1, rounds, false, outs⟩
      else
        runLoop env false
          (msgs ++ [⟨Role.assistant, resp⟩,
            ⟨Role.user, mkFeedback ((parseToolCalls resp).map
              (execToolCall env.registry))⟩])
          false n (calls + 1) (rounds + 1) outs := by
  rw [runLoop]
  simp [hok]

theorem runLoop_all_tool_calls (env : AgentEnv) (f : List ChatMessage → Str)
    (hok : ∀ msgs, env.llm.chat msgs = .ok (f msgs))
    (hne : ∀ msgs, parseToolCalls (f msgs) ≠ []) :
    ∀ (n : Nat) msgs isFirst calls rounds outs,
      ∃ out, runLoop env false msgs isFirst n calls rounds outs = .ok out ∧
        out.llmCalls = calls + n + 1 ∧ out.rounds = rounds + n ∧
        out.forcedFinal = true ∧ out.streamed = outs := by
  intro n
  induction n with
  | zero =>
    intro msgs isFirst calls rounds outs
    rw [runLoop, hok msgs]
    exact ⟨_, rfl, rfl, rfl, rfl, rfl⟩
  | succ n ih =>
    intro msgs isFirst calls rounds outs
    have hlen : ¬ (parseToolCalls (f msgs)).length = 0 := by
      intro hz
      exact hne msgs (List.length_eq_zero.mp hz)
    rw [runLoop_succ_chat env msgs isFirst n calls rounds outs (f msgs) (hok msgs),
      if_neg hlen]
    rcases ih (msgs ++ [⟨Role.assistant, f msgs⟩,
        ⟨Role.user, mkFeedback ((parseToolCalls (f msgs)).map
          (execToolCall env.registry))⟩]) false (calls + 1) (rounds + 1) outs with
      ⟨out, hout, h1, h2, h3, h4⟩
    refine ⟨out, hout, ?_, ?_, h3, h4⟩
    · omega
    · omega

/-- C3 (confirmed): with `maxToolCalls = N` and a model that returns at
least one valid tool call on every invocation, `agent.chat` terminates
(it is a total function and succeeds, first conjunct), performing exactly
`N` tool-executing rounds and `N + 1` model calls in total, exiting
through the forced final call whose cleaned text is the returned value
(second conjunct). -/
theorem C3_rounds_and_calls_bound (env : AgentEnv) (cfg : AgentConfig)
    (st : AgentState) (um uid : Str) (now : Nat) (f : List ChatMessage → Str)
    (hok : ∀ msgs, env.llm.chat msgs = .ok (f msgs))
    (hne : ∀ msgs, parseToolCalls (f msgs) ≠ []) :
    ((chat env cfg st um uid false now).1.isOk = true) ∧
    (∀ t out st2, chat env cfg st um uid false now = (.ok (t, out), st2) →
      out.rounds = cfg.maxToolCalls ∧ out.llmCalls = cfg.maxToolCalls + 1 ∧
      out.forcedFinal = true ∧ t = cleanResponse out.raw) := by
  rcases runLoop_all_tool_calls env f hok hne cfg.maxToolCalls
      (mkMessages env st.cache uid um) true 0 0 [] with
    ⟨out0, hrl, h1, h2, h3, h4⟩
  constructor
  · rw [chat, hrl]
    rfl
  · intro t out st2 h
    rw [chat, hrl, Prod.mk.injEq] at h
    have h5 := h.1
    simp only [Except.ok.injEq, Prod.mk.injEq] at h5
    rcases h5 with ⟨ht, hout⟩
    rw [← hout]
    refine ⟨by omega, by omega, h3, ht.symm⟩

/-- C3, witness: `maxToolCalls = 2` with an always-tool-calling model
gives exactly 2 executing rounds and 3 model calls. -/
theorem C3_witness :
    ((chat C3env ⟨2, 20⟩ ⟨[], []⟩ "hi".data "u".data false 0).1.isOk = true) ∧
    (⟨C3resp, 3, 2, true, []⟩ : LoopOut).rounds = 2 ∧
    (⟨C3resp, 3, 2, true, []⟩ : LoopOut).llmCalls = 2 + 1 ∧
    (⟨C3resp, 3, 2, true, []⟩ : LoopOut).forcedFinal = true := by
  have hthm := C3_rounds_and_calls_bound C3env ⟨2, 20⟩ ⟨[], []⟩ "hi".data
    "u".data 0 (fun _ => C3resp) (fun msgs => rfl)
    (fun msgs => by
      rw [show parseToolCalls C3resp = [⟨Json.str "t".data, Json.obj []⟩] from rfl]
      exact List.cons_ne_nil _ _)
  have h2 := hthm.2 (cleanResponse C3resp) ⟨C3resp, 3, 2, true, []⟩
    ((chat C3env ⟨2, 20⟩ ⟨[], []⟩ "hi".data "u".data false 0).2) rfl
  exact ⟨hthm.1, h2.1, h2.2.1, h2.2.2.1⟩

/-! ## Claim C8: unknown tools produce self-correcting feedback -/

/-- C8 (confirmed): a parsed request whose name is not registered yields
the UnknownTool failure message naming the tool, whose available-tools
list is exactly the registered names — containing every registered tool
and not the unknown one — and the failure feeds back into the
conversation as the feedback turn of the round, the loop continuing
rather than raising (last conjunct). -/
theorem C8_unknown_tool_feedback (reg : ToolRegistry) (nm : Str) (args : Json)
    (h : registryLookup reg (Json.str nm) = none) :
    execToolCall reg ⟨Json.str nm, args⟩
      = formatToolError
          ⟨.unknownTool, nm,
            "Tool \"".data ++ nm ++ "\" does not exist".data, none⟩
          (some (registryNames reg)) ∧
    (∀ t, t ∈ registryNames reg ↔ ∃ impl, (t, impl) ∈ reg) ∧
    nm ∉ registryNames reg ∧
    (∀ (env : AgentEnv) msgs isFirst n calls rounds outs resp,
      env.registry = reg →
      env.llm.chat msgs = .ok resp →
      parseToolCalls resp = [⟨Json.str nm, args⟩] →
      runLoop env false msgs isFirst (n + 1) calls rounds outs
        = runLoop env false
            (msgs ++ [⟨Role.assistant, resp⟩,
              ⟨Role.user, mkFeedback [execToolCall reg ⟨Json.str nm, args⟩]⟩])
            false n (calls + 1) (rounds + 1) outs) := by
  refine ⟨?_, ?_, ?_, ?_⟩
  · simp [execToolCall, h, jsToDisplay, jsToDisplayF]
  · intro t
    constructor
    · intro ht
      rcases List.mem_map.mp ht with ⟨⟨t1, impl⟩, hmem, heq⟩
      rw [← heq]
      exact ⟨impl, hmem⟩
    · rintro ⟨impl, hmem⟩
      exact List.mem_map.mpr ⟨(t, impl), hmem, rfl⟩
  · intro hmem
    have hf : reg.find? (fun p => p.1 == nm) = none := by
      rw [registryLookup] at h
      cases hff : reg.find? (fun p => p.1 == nm) with
      | none => rfl
      | some p => rw [hff] at h; cases h
    rcases List.mem_map.mp hmem with ⟨a, hamem, ha⟩
    have := List.find?_eq_none.mp hf a hamem
    rw [ha] at this
    simp at this
  · intro env msgs isFirst n calls rounds outs resp hreg hok hparse
    rw [runLoop_succ_chat env msgs isFirst n calls rounds outs resp hok, hparse,
      if_neg (by simp), hreg]
    simp


/-- C8, witness: with tools `alpha` and `beta` registered, requesting
`gamma` produces the UnknownTool message listing exactly `alpha, beta`. -/
theorem C8_witness :
    execToolCall C8reg ⟨Json.str "gamma".data, Json.obj []⟩
      = formatToolError
          ⟨.unknownTool, "gamma".data,
            "Tool \"".data ++ "gamma".data ++ "\" does not exist".data, none⟩
          (some (registryNames C8reg)) ∧
    "gamma".data ∉ registryNames C8reg :=
  ⟨(C8_unknown_tool_feedback C8reg "gamma".data (Json.obj []) rfl).1,
   (C8_unknown_tool_feedback C8reg "gamma".data (Json.obj []) rfl).2.2.1⟩

/-! ## Claim C2: history cache bound and suffix invariant -/

theorem loadHistory_cacheGet (cfg : AgentConfig) :
    ∀ (s : Store) (u : Str),
    cacheGet (loadHistory cfg s).cache u
      = sliceNeg (cfg.maxHistoryLength * 2) (storeGet s u) := by
  intro s
  induction s with
  | nil =>
    intro u
    simp [loadHistory, cacheGet, storeGet, sliceNeg]
  | cons p t ih =>
    intro u
    simp only [loadHistory, List.map_cons] at *
    rw [cacheGet_cons, storeGet, cacheGet_cons]
    by_cases hp : (p.1 == u) = true
    · rw [if_pos hp, if_pos hp]
    · rw [if_neg hp, if_neg hp]
      exact ih u

theorem chat_err_eq (env : AgentEnv) (cfg : AgentConfig) (st : AgentState)
    (um uid : Str) (us : Bool) (now : Nat) (e : Str)
    (h : runLoop env us (mkMessages env st.cache uid um) true
      cfg.maxToolCalls 0 0 [] = .error e) :
    chat env cfg st um uid us now
      = (.error e, ⟨ensureCacheEntry st.cache uid, st.store⟩) := by
  rw [chat, h]

theorem chat_ok_eq (env : AgentEnv) (cfg : AgentConfig) (st : AgentState)
    (um uid : Str) (us : Bool) (now : Nat) (out : LoopOut)
    (h : runLoop env us (mkMessages env st.cache uid um) true
      cfg.maxToolCalls 0 0 [] = .ok out) :
    chat env cfg st um uid us now
      = (.ok (cleanResponse out.raw, out),
         commitTurn cfg (ensureCacheEntry st.cache uid) st.store uid um
           (cleanResponse out.raw) now) := by
  rw [chat, h]

theorem chat_preserves_histInv (env : AgentEnv) (cfg : AgentConfig)
    (st : AgentState) (um uid : Str) (us : Bool) (now : Nat)
    (h : histInv cfg st) :
    histInv cfg (chat env cfg st um uid us now).2 := by
  cases hrl : runLoop env us (mkMessages env st.cache uid um) true
      cfg.maxToolCalls 0 0 [] with
  | error e =>
    rw [chat_err_eq env cfg st um uid us now e hrl]
    intro u
    constructor
    · simp only [cacheGet_ensure]
      exact (h u).1
    · simp only [cacheGet_ensure]
      exact (h u).2
  | ok out =>
    rw [chat_ok_eq env cfg st um uid us now out hrl]
    intro u
    simp only [commitTurn]
    by_cases hu : u = uid
    · subst hu
      constructor
      · rw [cacheGet_set_same]
        calc (shiftWhile (cfg.maxHistoryLength * 2) _).length
            ≤ cfg.maxHistoryLength * 2 := shiftWhile_length_le _ _
          _ = 2 * cfg.maxHistoryLength := Nat.mul_comm _ _
      · rw [cacheGet_set_same, storeGet_append_same, storeGet_append_same,
          cacheGet_ensure]
        refine (suffix_map rcOf (shiftWhile_suffix _ _)).trans ?_
        rw [List.append_assoc]
        simpa [rcOf] using suffix_append_right
          ([(Role.user, um), (Role.assistant, cleanResponse out.raw)]) (h u).2
    · constructor
      · rw [cacheGet_set_ne hu, cacheGet_ensure]
        exact (h u).1
      · rw [cacheGet_set_ne hu, cacheGet_ensure,
          storeGet_append_ne hu, storeGet_append_ne hu]
        exact (h u).2

/-- C2, counterexample: the claim's bound fails for `maxHistoryLength = 0`
with pre-existing durable history and an empty sequence of turns: JS
`slice(-0)` is `slice(0)`, so hydration does not trim at all and the
cache entry has length 1 > 2 × 0. -/
theorem C2_counterexample_zero_history_config :
    (cacheGet (loadHistory ⟨10, 0⟩
        [("u".data, [⟨Role.user, "m".data, 0⟩])]).cache "u".data).length = 1 ∧
    ¬ ((cacheGet (loadHistory ⟨10, 0⟩
        [("u".data, [⟨Role.user, "m".data, 0⟩])]).cache "u".data).length
      ≤ 2 * (0 : Nat)) := by
  decide

/-- C2, amended: provided `maxHistoryLength ≥ 1`, after hydration and any
sequence of turns (completed or failed — failed turns change nothing),
every user's in-memory cache entry has length at most
`2 × maxHistoryLength` and its (role, content) contents are a suffix of
that user's durable history; each turn's surviving entries are durably
recorded by the time the turn's state is committed — the suffix holds at
every turn boundary. -/
theorem C2_cache_bound_and_suffix (cfg : AgentConfig)
    (hN : 1 ≤ cfg.maxHistoryLength) :
    (∀ store, histInv cfg (loadHistory cfg store)) ∧
    (∀ env st um uid us now, histInv cfg st →
      histInv cfg (chat env cfg st um uid us now).2) ∧
    (∀ env inps st, histInv cfg st → histInv cfg (runTurns env cfg inps st)) := by
  have hload : ∀ store, histInv cfg (loadHistory cfg store) := by
    intro store u
    rw [loadHistory_cacheGet]
    have hk : ¬ cfg.maxHistoryLength * 2 = 0 := by omega
    rw [sliceNeg, if_neg hk]
    constructor
    · rw [List.length_drop]
      omega
    · have hdrop : List.drop ((storeGet store u).length - cfg.maxHistoryLength * 2)
          (storeGet store u) <:+ storeGet store u := List.drop_suffix _ _
      have : (loadHistory cfg store).store = store := rfl
      rw [this]
      exact suffix_map rcOf hdrop
  refine ⟨hload, fun env st um uid us now h =>
    chat_preserves_histInv env cfg st um uid us now h, ?_⟩
  intro env inps
  induction inps with
  | nil => intro st h; exact h
  | cons i t ih =>
    intro st h
    exact ih _ (chat_preserves_histInv env cfg st i.userMessage i.userId
      i.useStream i.now h)

/-- C2, witness: the invariant holds for a hydrated single-user store and
is preserved by a concrete successful turn from the empty state. -/
theorem C2_witness :
    histInv ⟨10, 20⟩ (loadHistory ⟨10, 20⟩
      [("u".data, [⟨Role.user, "m".data, 0⟩])]) ∧
    histInv ⟨2, 20⟩ (chat C3env ⟨2, 20⟩ ⟨[], []⟩ "hi".data "u".data false 0).2 := by
  constructor
  · exact (C2_cache_bound_and_suffix ⟨10, 20⟩ (by decide)).1 _
  · refine (C2_cache_bound_and_suffix ⟨2, 20⟩ (by decide)).2.1 C3env ⟨[], []⟩
      "hi".data "u".data false 0 ?_
    intro u
    constructor
    · simp [cacheGet]
    · simp [cacheGet, storeGet]

end Finch
